import Mathlib

/-!
Verification of the catalog-object replication scripts
(`replicate-envs.py` and `replicate/replicate-envs.py`).

The repository holds two near-duplicate revisions of one script; following
the specification's design note, each behavior is verified against the
revision that implements it in full:

* the object cleaner `remove_unwanted_fields`, the per-object version
  fetch with fallback, and `save_to_disk` are taken from
  `src/replicate/replicate-envs.py`;
* `post_object_to_url` (with its 409 and exception handling) and
  `fetch_objects_from_disk` (with its malformed-file skip) are taken from
  `src/replicate-envs.py`.

JSON documents are modelled by the inductive type `Json`; Python `dict`s
become insertion-ordered association lists with unique keys (the
operations below agree with Python's on every duplicate-free list and
normalize duplicates, which Python cannot produce).  Fallible Python code
(statements that can raise) is modelled with `Option`/`Except`.  A second,
heap-based embedding with explicit object identities is used to state and
prove the "never mutates its input" contract of the cleaner.
-/

namespace Replicate

/-- A JSON value: Python dicts are ordered association lists. -/
inductive Json where
  | null : Json
  | bool (b : Bool) : Json
  | num (n : Int) : Json
  | str (s : String) : Json
  | arr (elems : List Json) : Json
  | obj (fields : List (String × Json)) : Json

/-- First value bound to key `k` (Python `d[k]` / `d.get(k)`). -/
def getKey {α : Type} : List (String × α) → String → Option α
  | [], _ => none
  | kv :: rest, k => if kv.1 = k then some kv.2 else getKey rest k

/-- Remove every binding of key `k` (Python `d.pop(k, None)`;
on a duplicate-free list this removes at most one binding). -/
def removeKey {α : Type} : List (String × α) → String → List (String × α)
  | [], _ => []
  | kv :: rest, k => if kv.1 = k then removeKey rest k else kv :: removeKey rest k

/-- Bind `k` to `v` (Python `d[k] = v`): overwrite the first binding in
place, dropping duplicates after it, or append a fresh binding at the end. -/
def setKey {α : Type} : List (String × α) → String → α → List (String × α)
  | [], k, v => [(k, v)]
  | kv :: rest, k, v =>
    if kv.1 = k then (k, v) :: removeKey rest k else kv :: setKey rest k v

/-- Follow a path of object keys (`j["a"]["b"]...`), `none` when a step is
not an object or the key is absent. -/
def getPath : Json → List String → Option Json
  | j, [] => some j
  | .obj fs, k :: ks =>
    match getKey fs k with
    | some v => getPath v ks
    | none => none
  | _, _ :: _ => none

/-- The fixed destination project identifier
(`PROJECT = "system-catalog"`, `src/replicate/replicate-envs.py` line 83). -/
def PROJECT : String := "system-catalog"

/-- Metadata fields stripped by the cleaner
(`src/replicate/replicate-envs.py` line 111). -/
def volatileMetaFields : List String :=
  ["id", "modifiedAt", "createdAt", "projectID", "createdBy", "modifiedBy"]

/-- Pops of the volatile fields followed by `meta["project"] = PROJECT`
(`src/replicate/replicate-envs.py` lines 110-113). -/
def cleanMeta (mfs : List (String × Json)) : List (String × Json) :=
  setKey (volatileMetaFields.foldl removeKey mfs) "project" (.str PROJECT)

/-- `hook_item.pop("agents", None)` guarded by `isinstance(hook_item, dict)`
(`src/replicate/replicate-envs.py` lines 125-126). -/
def cleanHookItem : Json → Json
  | .obj efs => .obj (removeKey efs "agents")
  | x => x

/-- The inner loop over one hook sequence, guarded by
`isinstance(hook_list, list)` (`src/replicate/replicate-envs.py` lines 123-126). -/
def cleanHookList : Json → Json
  | .arr xs => .arr (xs.map cleanHookItem)
  | v => v

/-- `hooks = cleaned["spec"].get("hooks")` followed by the loop over hook
sequences, guarded by `if hooks and isinstance(hooks, dict)`: an absent,
falsy (empty) or non-dict `hooks` value is left alone
(`src/replicate/replicate-envs.py` lines 120-126). -/
def hooksStep (s2 : List (String × Json)) : List (String × Json) :=
  match getKey s2 "hooks" with
  | some (.obj hfs) =>
    if hfs.isEmpty then s2
    else setKey s2 "hooks" (.obj (hfs.map fun kv => (kv.1, cleanHookList kv.2)))
  | _ => s2

/-- The spec block of the cleaner: pop `sharing` and `agents`, then strip
`agents` from every hook definition when `spec.hooks` is a non-empty dict
(`src/replicate/replicate-envs.py` lines 116-126). -/
def cleanSpecFields (sfs : List (String × Json)) : List (String × Json) :=
  hooksStep (removeKey (removeKey sfs "sharing") "agents")

/-- `cleaned.get("metadata", {})` followed by the first `meta.pop`:
absent metadata defaults to `{}`, a non-dict metadata value raises
(modelled as `none`). -/
def metaFieldsOf (fields : List (String × Json)) : Option (List (String × Json)) :=
  match getKey fields "metadata" with
  | none => some []
  | some (.obj mfs) => some mfs
  | some _ => none

/-- `if "spec" in cleaned and isinstance(cleaned["spec"], dict)` guarding
the spec block (`src/replicate/replicate-envs.py` line 116). -/
def applySpecClean (fields : List (String × Json)) : List (String × Json) :=
  match getKey fields "spec" with
  | some (.obj sfs) => setKey fields "spec" (.obj (cleanSpecFields sfs))
  | _ => fields

/-- The object cleaner `remove_unwanted_fields`
(`src/replicate/replicate-envs.py` lines 108-129).  `copy.deepcopy` on
tree-shaped (JSON-decoded) data is the identity on the pure value, so the
body is the composition of the metadata rewrite, the spec block and the
`status` pop; `none` models the `AttributeError`/`TypeError` raised when
the record or its metadata value is not a dict. -/
def remove_unwanted_fields (item : Json) : Option Json :=
  match item with
  | .obj fields =>
    match metaFieldsOf fields with
    | none => none
    | some mfs =>
      let f1 := setKey fields "metadata" (.obj (cleanMeta mfs))
      let f2 := applySpecClean f1
      some (.obj (removeKey f2 "status"))
  | _ => none

/-- The top-level field list produced by the cleaner once the metadata
slot has been read as `mfs` (the composition of lines 113-128 of
`src/replicate/replicate-envs.py`). -/
def cleanedFields (fields mfs : List (String × Json)) : List (String × Json) :=
  removeKey (applySpecClean (setKey fields "metadata" (.obj (cleanMeta mfs)))) "status"

/-- The outcome of the underlying `requests.post` call: an HTTP response
(status code and body text) or a raised transport-level exception carrying
its message. -/
inductive PostResult where
  | response (status : Nat) (body : String) : PostResult
  | exn (msg : String) : PostResult

/-- `obj["metadata"].get("name", "<unknown>")` (`src/replicate-envs.py`
line 82); `none` models the `KeyError`/`AttributeError` raised before the
`try` block when the record has no metadata dict. -/
def nameOf (obj : Json) : Option Json :=
  match obj with
  | .obj fs =>
    match getKey fs "metadata" with
    | some (.obj mfs) => some ((getKey mfs "name").getD (.str "<unknown>"))
    | _ => none
  | _ => none

/-- `post_object_to_url` (`src/replicate-envs.py` lines 79-93) with the
network interaction abstracted into a `PostResult`: 200/201 succeed, 409
succeeds with the distinct conflict message, any other status is a
failure carrying status and body, and a raised exception is caught and
turned into a failure outcome.  The outer `none` models the error raised
while reading the name, before the `try`. -/
def post_object_to_url (obj : Json) (net : PostResult) :
    Option (Bool × Json × String) :=
  match nameOf obj with
  | none => none
  | some name =>
    match net with
    | .response st body =>
      if st = 200 ∨ st = 201 then some (true, name, "Successfully created")
      else if st = 409 then some (true, name, "Already exists (409 CONFLICT)")
      else some (false, name, "Failed with status " ++ toString st ++ ": " ++ body)
    | .exn e => some (false, name, "Exception: " ++ e)

/-- Suffix test on the reversed character lists, modelling Python
`str.endswith` (kernel-reducible, unlike `String.endsWith`). -/
def strEndsWithAux : List Char → List Char → Bool
  | _, [] => true
  | [], _ :: _ => false
  | c :: cs, d :: ds => c = d && strEndsWithAux cs ds

/-- `s.endswith(suffix)`. -/
def strEndsWith (s suffix : String) : Bool :=
  strEndsWithAux s.data.reverse suffix.data.reverse

/-- One entry of the source directory `<source_dir>/<obj_type>`: a
subdirectory, or a file whose open-and-parse either yields a record or
raises with a message. -/
inductive DirEntry where
  | dir : DirEntry
  | file (content : Except String Json) : DirEntry

/-- `fetch_objects_from_disk` (`src/replicate-envs.py` lines 56-76) over
an abstract directory listing in `os.listdir` order: the reserved `raw`
subdirectory is skipped, only names ending in `.json` are considered, and
a file whose open or parse raises is recorded as a printed warning and
skipped (a directory with a `.json` name raises `IsADirectoryError` on
`open`, caught by the same handler).  Returns the loaded records and the
warning lines. -/
def fetch_objects_from_disk (path : String) :
    List (String × DirEntry) → List Json × List String
  | [] => ([], [])
  | (filename, ent) :: rest =>
    let r := fetch_objects_from_disk path rest
    match ent with
    | .dir =>
      if filename = "raw" then r
      else if strEndsWith filename ".json" then
        (r.1, ("❌ Failed to load " ++ path ++ "/" ++ filename
          ++ ": IsADirectoryError") :: r.2)
      else r
    | .file (.ok j) => if strEndsWith filename ".json" then (j :: r.1, r.2) else r
    | .file (.error e) =>
      if strEndsWith filename ".json" then
        (r.1, ("❌ Failed to load " ++ path ++ "/" ++ filename ++ ": " ++ e) :: r.2)
      else r

/-- `fetch_versions_from_url` (`src/replicate/replicate-envs.py` lines
146-156) with the network interaction abstracted: the input is the
combined outcome of the GET, `raise_for_status` and `.json()` steps; on
success the `items` member is extracted with default `[]` (`.get` on a
non-dict body raises, propagated as an error). -/
def fetch_versions_from_url (resp : Except String Json) : Except String Json :=
  match resp with
  | .error e => .error e
  | .ok data =>
    match data with
    | .obj fs => .ok ((getKey fs "items").getD (.arr []))
    | _ => .error "AttributeError"

/-- The per-item version selection of `replicate_objects`
(`src/replicate/replicate-envs.py` lines 215-227): unversioned types use
the item itself as sole version; otherwise the version fetch is attempted
and any raised error is caught, a warning line is printed and the
un-versioned item becomes the sole version.  Returns the versions value
(kept as a `Json` value, as in the source) and the optional warning. -/
def versions_of_item (object_type : String) (source_is_url : Bool)
    (name : String) (item : Json) (fetched : Except String Json) :
    Json × Option String :=
  if source_is_url then
    if object_type = "computeprofiles" ∨ object_type = "serviceprofiles" then
      (.arr [item], none)
    else
      match fetched with
      | .ok v => (v, none)
      | .error e =>
        (.arr [item], some ("⚠️ Failed to fetch versions for " ++ name ++ ": " ++ e))
  else (.arr [item], none)

/-- The file path written by `save_to_disk`
(`src/replicate/replicate-envs.py` lines 158-170): `<target>/<type>`,
plus `/raw` when the raw variant is requested, then `<name>`, a
`-<version>` suffix exactly when the version is truthy (supplied and
non-empty), and the `.json` extension. -/
def save_to_disk_path (target_dir object_type name : String)
    (version : Option String) (raw : Bool) : String :=
  let base_dir := (target_dir ++ "/" ++ object_type) ++ (if raw then "/raw" else "")
  let filename := (name ++ (match version with
    | some v => if v = "" then "" else "-" ++ v
    | none => "")) ++ ".json"
  base_dir ++ "/" ++ filename

/-- The pair of writes performed per object version when the target is a
directory (`src/replicate/replicate-envs.py` lines 239-241): first the
raw record under `raw/`, then the cleaned record, each as a
`(path, written value)` pair. -/
def disk_writes (target object_type name : String) (version : Option String)
    (version_obj cleaned : Json) : List (String × Json) :=
  [(save_to_disk_path target object_type name version true, version_obj),
   (save_to_disk_path target object_type name version false, cleaned)]

/-!
### Heap embedding of the cleaner

To state that `remove_unwanted_fields` never mutates its argument, the
function body is embedded a second time over an explicit heap in which
every Python object has an address and in-place `pop`/`[...]=` statements
are stores.  `copy.deepcopy` allocates fresh addresses only; the body then
mutates only addresses reachable from the copy.
-/

/-- A heap node: one Python object, its children held by address. -/
inductive HNode where
  | null : HNode
  | bool (b : Bool) : HNode
  | num (n : Int) : HNode
  | str (s : String) : HNode
  | arr (elems : List Nat) : HNode
  | obj (fields : List (String × Nat)) : HNode

/-- A heap: addresses are indices into the allocation list. -/
structure Heap where
  mem : List HNode

def Heap.read (h : Heap) (i : Nat) : Option HNode := h.mem[i]?

def Heap.set (h : Heap) (i : Nat) (n : HNode) : Heap := ⟨h.mem.set i n⟩

def Heap.alloc (h : Heap) (n : HNode) : Heap × Nat :=
  (⟨h.mem ++ [n]⟩, h.mem.length)

def HNode.childRefs : HNode → List Nat
  | .arr es => es
  | .obj fs => fs.map Prod.snd
  | _ => []

def readChildren (g : Nat → Option Json) : List Nat → Option (List Json)
  | [] => some []
  | r :: rs =>
    match g r, readChildren g rs with
    | some j, some js => some (j :: js)
    | _, _ => none

def readFields (g : Nat → Option Json) :
    List (String × Nat) → Option (List (String × Json))
  | [] => some []
  | (k, r) :: rs =>
    match g r, readFields g rs with
    | some j, some js => some ((k, j) :: js)
    | _, _ => none

/-- Read the (tree-shaped) value rooted at address `r`, with fuel against
cyclic heaps. -/
def readTree : Nat → Heap → Nat → Option Json
  | 0, _, _ => none
  | fuel + 1, h, r =>
    match h.read r with
    | none => none
    | some .null => some .null
    | some (.bool b) => some (.bool b)
    | some (.num n) => some (.num n)
    | some (.str s) => some (.str s)
    | some (.arr es) => (readChildren (readTree fuel h) es).map .arr
    | some (.obj fs) => (readFields (readTree fuel h) fs).map .obj

def copyChildren (f : Heap → Nat → Option (Heap × Nat)) :
    Heap → List Nat → Option (Heap × List Nat)
  | h, [] => some (h, [])
  | h, r :: rs =>
    match f h r with
    | none => none
    | some (h1, r1) =>
      match copyChildren f h1 rs with
      | none => none
      | some (h2, rs2) => some (h2, r1 :: rs2)

def copyFields (f : Heap → Nat → Option (Heap × Nat)) :
    Heap → List (String × Nat) → Option (Heap × List (String × Nat))
  | h, [] => some (h, [])
  | h, (k, r) :: rs =>
    match f h r with
    | none => none
    | some (h1, r1) =>
      match copyFields f h1 rs with
      | none => none
      | some (h2, rs2) => some (h2, (k, r1) :: rs2)

/-- `cleaned = copy.deepcopy(item)` (`src/replicate/replicate-envs.py`
line 109) as a structural copy into fresh addresses (JSON-decoded data is
tree-shaped, so the memo table of `deepcopy` never fires). -/
def dcopy : Nat → Heap → Nat → Option (Heap × Nat)
  | 0, _, _ => none
  | fuel + 1, h, r =>
    match h.read r with
    | none => none
    | some (.arr es) =>
      match copyChildren (dcopy fuel) h es with
      | none => none
      | some (h1, es1) => some (h1.alloc (.arr es1))
    | some (.obj fs) =>
      match copyFields (dcopy fuel) h fs with
      | none => none
      | some (h1, fs1) => some (h1.alloc (.obj fs1))
    | some leaf => some (h.alloc leaf)

/-- One `meta.pop(field, None)`: raises (`none`) unless `meta` is a dict. -/
def popFieldHeap (h : Heap) (mr : Nat) (k : String) : Option Heap :=
  match h.read mr with
  | some (.obj mfs) => some (h.set mr (.obj (removeKey mfs k)))
  | _ => none

/-- The `for field in [...]` loop of pops
(`src/replicate/replicate-envs.py` lines 110-112). -/
def popFieldsHeap : Heap → Nat → List String → Option Heap
  | h, _, [] => some h
  | h, mr, k :: ks =>
    match popFieldHeap h mr k with
    | none => none
    | some h1 => popFieldsHeap h1 mr ks

/-- `meta["project"] = PROJECT` (line 113): the string is a value object,
modelled as a fresh allocation, then an in-place store into `meta`. -/
def setProjectHeap (h : Heap) (mr : Nat) : Option Heap :=
  match (h.alloc (.str PROJECT)).1.read mr with
  | some (.obj mfs) =>
    some ((h.alloc (.str PROJECT)).1.set mr
      (.obj (setKey mfs "project" (h.alloc (.str PROJECT)).2)))
  | _ => none

/-- `meta = cleaned.get("metadata", {})` (line 110): return the existing
child address, or allocate a fresh empty dict. -/
def getMetaRefHeap (h : Heap) (c : Nat) : Option (Heap × Nat) :=
  match h.read c with
  | some (.obj cfs) =>
    match getKey cfs "metadata" with
    | some mr => some (h, mr)
    | none => some (h.alloc (.obj []))
  | _ => none

/-- `cleaned["metadata"] = meta` (line 114). -/
def assignMetadataHeap (h : Heap) (c mr : Nat) : Option Heap :=
  match h.read c with
  | some (.obj cfs) => some (h.set c (.obj (setKey cfs "metadata" mr)))
  | _ => none

/-- `hook_item.pop("agents", None)` guarded by `isinstance` (lines 125-126). -/
def cleanHookItemHeap (h : Heap) (er : Nat) : Heap :=
  match h.read er with
  | some (.obj efs) => h.set er (.obj (removeKey efs "agents"))
  | _ => h

/-- The loop over one hook sequence, guarded by `isinstance(hook_list, list)`
(lines 123-126). -/
def cleanHookListHeap (h : Heap) (lr : Nat) : Heap :=
  match h.read lr with
  | some (.arr es) => es.foldl cleanHookItemHeap h
  | _ => h

/-- The loop over `hooks.items()` guarded by `if hooks and isinstance(hooks,
dict)` (lines 121-126). -/
def cleanHooksHeap (h : Heap) (hr : Nat) : Heap :=
  match h.read hr with
  | some (.obj hfs) =>
    if hfs.isEmpty then h
    else hfs.foldl (fun acc kv => cleanHookListHeap acc kv.2) h
  | _ => h

/-- The whole spec block (lines 115-126): in-place pops of `sharing` and
`agents` on the spec dict, then the hooks traversal; every guard failure
leaves the heap untouched. -/
def specCleanHeap (h : Heap) (c : Nat) : Heap :=
  match h.read c with
  | some (.obj cfs) =>
    match getKey cfs "spec" with
    | some sr =>
      match h.read sr with
      | some (.obj sfs) =>
        match (h.set sr (.obj (removeKey (removeKey sfs "sharing")
            "agents"))).read sr with
        | some (.obj sfs2) =>
          match getKey sfs2 "hooks" with
          | some hr =>
            cleanHooksHeap (h.set sr (.obj (removeKey (removeKey sfs "sharing")
              "agents"))) hr
          | none => h.set sr (.obj (removeKey (removeKey sfs "sharing") "agents"))
        | _ => h.set sr (.obj (removeKey (removeKey sfs "sharing") "agents"))
      | _ => h
    | none => h
  | _ => h

/-- `cleaned.pop("status", None)` followed by `return cleaned`
(lines 128-129). -/
def popStatusHeap (h : Heap) (c : Nat) : Option (Heap × Nat) :=
  match h.read c with
  | some (.obj cfs) => some (h.set c (.obj (removeKey cfs "status")), c)
  | _ => none

/-- The heap embedding of `remove_unwanted_fields`
(`src/replicate/replicate-envs.py` lines 108-129), statement by statement:
deep copy, metadata read, the six pops, the project store, the metadata
re-assignment, the spec block, the status pop.  `none` models a raised
error. -/
def remove_unwanted_fields_heap (fuel : Nat) (h : Heap) (r : Nat) :
    Option (Heap × Nat) :=
  match dcopy fuel h r with
  | none => none
  | some (h1, c) =>
    match getMetaRefHeap h1 c with
    | none => none
    | some (h2, mr) =>
      match popFieldsHeap h2 mr volatileMetaFields with
      | none => none
      | some h3 =>
        match setProjectHeap h3 mr with
        | none => none
        | some h4 =>
          match assignMetadataHeap h4 c mr with
          | none => none
          | some h5 => popStatusHeap (specCleanHeap h5 c) c

/-- Heap `h'` agrees with `h` on every address below `n`. -/
def Pres (n : Nat) (h h' : Heap) : Prop :=
  ∀ i, i < n → h'.read i = h.read i

/-- All addresses at or above `n` form a closed region: their nodes only
point at or above `n` (and `n` is within the allocation bound). -/
def Inv (n : Nat) (h : Heap) : Prop :=
  n ≤ h.mem.length ∧
  ∀ i node, n ≤ i → h.read i = some node → ∀ cr ∈ node.childRefs, n ≤ cr

/-! ### Association-list algebra -/

theorem getKey_removeKey_self {α : Type} (l : List (String × α)) (k : String) :
    getKey (removeKey l k) k = none := by
  induction l with
  | nil => rfl
  | cons kv t ih =>
    by_cases h : kv.1 = k
    · simp [removeKey, h, ih]
    · simp [removeKey, getKey, h, ih]

theorem getKey_removeKey_ne {α : Type} (l : List (String × α)) {k k' : String}
    (h : k' ≠ k) : getKey (removeKey l k) k' = getKey l k' := by
  have h1 : k ≠ k' := fun hh => h hh.symm
  induction l with
  | nil => rfl
  | cons kv t ih =>
    by_cases hk : kv.1 = k
    · simp [removeKey, getKey, hk, h1, ih]
    · by_cases hk' : kv.1 = k'
      · simp [removeKey, getKey, hk, hk', h]
      · simp [removeKey, getKey, hk, hk', ih]

theorem getKey_none_of_removed {α : Type} {l : List (String × α)} {k : String}
    (h : getKey l k = none) (a : String) : getKey (removeKey l a) k = none := by
  by_cases hak : k = a
  · rw [hak]; exact getKey_removeKey_self l a
  · rw [getKey_removeKey_ne l hak]; exact h

theorem removeKey_eq_of_getKey_none {α : Type} {l : List (String × α)} {k : String}
    (h : getKey l k = none) : removeKey l k = l := by
  induction l with
  | nil => rfl
  | cons kv t ih =>
    by_cases hk : kv.1 = k
    · rw [getKey, if_pos hk] at h; exact absurd h (by simp)
    · rw [getKey, if_neg hk] at h
      rw [removeKey, if_neg hk, ih h]

theorem getKey_setKey_self {α : Type} (l : List (String × α)) (k : String) (v : α) :
    getKey (setKey l k v) k = some v := by
  induction l with
  | nil => simp [setKey, getKey]
  | cons kv t ih =>
    by_cases h : kv.1 = k
    · simp [setKey, getKey, h]
    · simp [setKey, getKey, h, ih]

theorem getKey_setKey_ne {α : Type} (l : List (String × α)) {k k' : String} (v : α)
    (h : k' ≠ k) : getKey (setKey l k v) k' = getKey l k' := by
  have h1 : k ≠ k' := fun hh => h hh.symm
  induction l with
  | nil => simp [setKey, getKey, h1]
  | cons kv t ih =>
    by_cases hk : kv.1 = k
    · simp [setKey, getKey, hk, h1, getKey_removeKey_ne t h]
    · by_cases hk' : kv.1 = k'
      · simp [setKey, getKey, hk, hk', h]
      · simp [setKey, getKey, hk, hk', ih]

theorem removeKey_removeKey_comm {α : Type} (l : List (String × α)) (a b : String) :
    removeKey (removeKey l a) b = removeKey (removeKey l b) a := by
  induction l with
  | nil => rfl
  | cons kv t ih =>
    by_cases ha : kv.1 = a
    · by_cases hb : kv.1 = b
      · have hab : a = b := ha.symm.trans hb
        simp [removeKey, ha, hb, hab, ih]
      · have hab : ¬a = b := fun hh => hb (hh ▸ ha)
        simp [removeKey, ha, hb, hab, ih]
    · by_cases hb : kv.1 = b
      · have hba : ¬b = a := fun hh => ha (hh ▸ hb)
        simp [removeKey, ha, hb, hba, ih]
      · simp [removeKey, ha, hb, ih]

theorem removeKey_setKey {α : Type} (l : List (String × α)) {k k' : String} (v : α)
    (h : k ≠ k') : removeKey (setKey l k' v) k = setKey (removeKey l k) k' v := by
  have h1 : k' ≠ k := fun hh => h hh.symm
  induction l with
  | nil => simp [setKey, removeKey, h1]
  | cons kv t ih =>
    by_cases hk' : kv.1 = k'
    · simp [setKey, removeKey, hk', h1, h, removeKey_removeKey_comm]
    · by_cases hk : kv.1 = k
      · simp [setKey, removeKey, hk', hk, h, ih]
      · simp [setKey, removeKey, hk', hk, ih]

theorem setKey_setKey {α : Type} (l : List (String × α)) (k : String) (v v' : α) :
    setKey (setKey l k v) k v' = setKey l k v' := by
  induction l with
  | nil => simp [setKey, removeKey]
  | cons kv t ih =>
    by_cases h : kv.1 = k
    · simp [setKey, h, removeKey_eq_of_getKey_none (getKey_removeKey_self t k)]
    · simp [setKey, h, ih]

theorem setKey_removeKey_of_fixed {α : Type} {l : List (String × α)} {k k' : String}
    {v : α} (hfix : setKey l k v = l) (hne : k' ≠ k) :
    setKey (removeKey l k') k v = removeKey l k' := by
  induction l with
  | nil => exact absurd hfix (by simp [setKey])
  | cons kv t ih =>
    by_cases h : kv.1 = k
    · rw [setKey, if_pos h] at hfix
      injection hfix with h1 h2
      have hkk' : kv.1 ≠ k' := by rw [h]; exact fun hh => hne hh.symm
      rw [removeKey, if_neg hkk', setKey, if_pos h, removeKey_removeKey_comm,
        h2, h1]
    · rw [setKey, if_neg h] at hfix
      injection hfix with h1 h2
      by_cases h' : kv.1 = k'
      · rw [removeKey, if_pos h']; exact ih h2
      · rw [removeKey, if_neg h', setKey, if_neg h, ih h2]

theorem setKey_setKey_of_fixed {α : Type} {l : List (String × α)} {k k' : String}
    {v v' : α} (hfix : setKey l k v = l) (hne : k' ≠ k) :
    setKey (setKey l k' v') k v = setKey l k' v' := by
  induction l with
  | nil => exact absurd hfix (by simp [setKey])
  | cons kv t ih =>
    by_cases h : kv.1 = k
    · rw [setKey, if_pos h] at hfix
      injection hfix with h1 h2
      have hkk' : kv.1 ≠ k' := by rw [h]; exact fun hh => hne hh.symm
      rw [setKey, if_neg hkk', setKey, if_pos h,
        removeKey_setKey t v' (show k ≠ k' from fun hh => hne hh.symm), h2, h1]
    · rw [setKey, if_neg h] at hfix
      injection hfix with h1 h2
      by_cases h' : kv.1 = k'
      · rw [setKey, if_pos h', setKey,
          if_neg (show (k', v').1 ≠ k from fun hh => hne hh),
          setKey_removeKey_of_fixed h2 hne]
      · rw [setKey, if_neg h', setKey, if_neg h, ih h2]

theorem getKey_foldRemove_none {α : Type} (ks : List String)
    {l : List (String × α)} {k : String} (h : getKey l k = none) :
    getKey (ks.foldl removeKey l) k = none := by
  induction ks generalizing l with
  | nil => exact h
  | cons a t ih => exact ih (getKey_none_of_removed h a)

theorem getKey_foldRemove_of_mem {α : Type} {ks : List String}
    (l : List (String × α)) {k : String} (hk : k ∈ ks) :
    getKey (ks.foldl removeKey l) k = none := by
  induction ks generalizing l with
  | nil => cases hk
  | cons a t ih =>
    rcases List.mem_cons.mp hk with h | h
    · subst h
      exact getKey_foldRemove_none t (getKey_removeKey_self l k)
    · exact ih (removeKey l a) h

theorem getKey_foldRemove_not_mem {α : Type} {ks : List String}
    (l : List (String × α)) {k : String} (hk : k ∉ ks) :
    getKey (ks.foldl removeKey l) k = getKey l k := by
  induction ks generalizing l with
  | nil => rfl
  | cons a t ih =>
    have hka : k ≠ a := fun hh => hk (hh ▸ List.mem_cons_self a t)
    have hkt : k ∉ t := fun hh => hk (List.mem_cons_of_mem a hh)
    rw [List.foldl_cons, ih (removeKey l a) hkt, getKey_removeKey_ne l hka]

theorem foldRemove_eq_of_getKey_none {α : Type} {ks : List String}
    {l : List (String × α)} (h : ∀ a ∈ ks, getKey l a = none) :
    ks.foldl removeKey l = l := by
  induction ks with
  | nil => rfl
  | cons a t ih =>
    have ha : removeKey l a = l :=
      removeKey_eq_of_getKey_none (h a (List.mem_cons_self a t))
    rw [List.foldl_cons, ha, ih (fun b hb => h b (List.mem_cons_of_mem a hb))]

theorem getKey_map_snd {α β : Type} (l : List (String × α)) (f : α → β)
    (k : String) :
    getKey (l.map fun kv => (kv.1, f kv.2)) k = (getKey l k).map f := by
  induction l with
  | nil => rfl
  | cons kv t ih =>
    by_cases h : kv.1 = k
    · simp [getKey, h]
    · simp [getKey, h, ih]

/-! ### Equation lemmas for the match-based definitions -/

theorem hooksStep_of_none {s2 : List (String × Json)}
    (hs : getKey s2 "hooks" = none) : hooksStep s2 = s2 := by
  unfold hooksStep; rw [hs]

theorem hooksStep_of_obj {s2 hfs} (hs : getKey s2 "hooks" = some (.obj hfs)) :
    hooksStep s2 = if hfs.isEmpty then s2
      else setKey s2 "hooks" (.obj (hfs.map fun kv => (kv.1, cleanHookList kv.2))) := by
  unfold hooksStep; rw [hs]

theorem hooksStep_of_not_obj {s2 : List (String × Json)} {v : Json}
    (hv : ∀ hfs, v ≠ .obj hfs) (hs : getKey s2 "hooks" = some v) :
    hooksStep s2 = s2 := by
  unfold hooksStep; rw [hs]
  cases v with
  | obj hfs => exact absurd rfl (hv hfs)
  | null => rfl
  | bool b => rfl
  | num n => rfl
  | str s => rfl
  | arr es => rfl

theorem applySpecClean_of_obj {l sfs} (hs : getKey l "spec" = some (.obj sfs)) :
    applySpecClean l = setKey l "spec" (.obj (cleanSpecFields sfs)) := by
  unfold applySpecClean; rw [hs]

theorem applySpecClean_of_none {l : List (String × Json)}
    (hs : getKey l "spec" = none) : applySpecClean l = l := by
  unfold applySpecClean; rw [hs]

theorem applySpecClean_of_not_obj {l : List (String × Json)} {v : Json}
    (hv : ∀ sfs, v ≠ .obj sfs) (hs : getKey l "spec" = some v) :
    applySpecClean l = l := by
  unfold applySpecClean; rw [hs]
  cases v with
  | obj sfs => exact absurd rfl (hv sfs)
  | null => rfl
  | bool b => rfl
  | num n => rfl
  | str s => rfl
  | arr es => rfl

theorem metaFieldsOf_of_none {fields : List (String × Json)}
    (h : getKey fields "metadata" = none) : metaFieldsOf fields = some [] := by
  unfold metaFieldsOf; rw [h]

theorem metaFieldsOf_of_obj {fields mfs}
    (h : getKey fields "metadata" = some (.obj mfs)) :
    metaFieldsOf fields = some mfs := by
  unfold metaFieldsOf; rw [h]

/-- The output of the cleaner on a record whose metadata slot is readable. -/
theorem clean_eq {fields mfs} (hm : metaFieldsOf fields = some mfs) :
    remove_unwanted_fields (.obj fields) = some (.obj (cleanedFields fields mfs)) := by
  simp only [remove_unwanted_fields, cleanedFields]; rw [hm]

/-! ### Structure of the cleaner's output -/

theorem getKey_hooksStep_ne (l : List (String × Json)) {k : String}
    (h : k ≠ "hooks") : getKey (hooksStep l) k = getKey l k := by
  unfold hooksStep
  cases hs : getKey l "hooks" with
  | none => rfl
  | some v =>
    cases v with
    | obj hfs =>
      by_cases he : hfs.isEmpty
      · simp [he]
      · simp [he, getKey_setKey_ne l _ h]
    | null => rfl
    | bool b => rfl
    | num n => rfl
    | str s => rfl
    | arr es => rfl

theorem getKey_applySpecClean_ne (l : List (String × Json)) {k : String}
    (h : k ≠ "spec") : getKey (applySpecClean l) k = getKey l k := by
  unfold applySpecClean
  cases hs : getKey l "spec" with
  | none => rfl
  | some v =>
    cases v with
    | obj sfs => exact getKey_setKey_ne l _ h
    | null => rfl
    | bool b => rfl
    | num n => rfl
    | str s => rfl
    | arr es => rfl

theorem getKey_cleanMeta_volatile (mfs : List (String × Json)) {k : String}
    (hk : k ∈ volatileMetaFields) : getKey (cleanMeta mfs) k = none := by
  have hkp : k ≠ "project" := by
    fin_cases hk <;> decide
  unfold cleanMeta
  rw [getKey_setKey_ne _ _ hkp]
  exact getKey_foldRemove_of_mem mfs hk

theorem getKey_cleanMeta_project (mfs : List (String × Json)) :
    getKey (cleanMeta mfs) "project" = some (.str PROJECT) :=
  getKey_setKey_self _ _ _

theorem getKey_cleanSpecFields_sharing (sfs : List (String × Json)) :
    getKey (cleanSpecFields sfs) "sharing" = none := by
  unfold cleanSpecFields
  rw [getKey_hooksStep_ne _ (by decide),
    getKey_removeKey_ne _ (by decide), getKey_removeKey_self]

theorem getKey_cleanSpecFields_agents (sfs : List (String × Json)) :
    getKey (cleanSpecFields sfs) "agents" = none := by
  unfold cleanSpecFields
  rw [getKey_hooksStep_ne _ (by decide), getKey_removeKey_self]

/-- Every hook definition reachable inside the output of `cleanHookList`
has lost its `agents` field. -/
theorem cleanHookList_agents_absent (w : Json) :
    ∀ xs, cleanHookList w = .arr xs → ∀ x ∈ xs, ∀ efs, x = .obj efs →
      getKey efs "agents" = none := by
  intro xs hxs x hx efs hefs
  subst hefs
  cases w with
  | arr xs0 =>
    simp only [cleanHookList] at hxs
    injection hxs with hxs
    subst hxs
    obtain ⟨x0, _, hx0⟩ := List.mem_map.mp hx
    cases x0 with
    | obj efs0 =>
      simp only [cleanHookItem] at hx0
      injection hx0 with hx0
      rw [← hx0]
      exact getKey_removeKey_self _ _
    | null => simp only [cleanHookItem] at hx0; exact Json.noConfusion hx0
    | bool b => simp only [cleanHookItem] at hx0; exact Json.noConfusion hx0
    | num n => simp only [cleanHookItem] at hx0; exact Json.noConfusion hx0
    | str s => simp only [cleanHookItem] at hx0; exact Json.noConfusion hx0
    | arr es => simp only [cleanHookItem] at hx0; exact Json.noConfusion hx0
  | null => simp only [cleanHookList] at hxs; exact Json.noConfusion hxs
  | bool b => simp only [cleanHookList] at hxs; exact Json.noConfusion hxs
  | num n => simp only [cleanHookList] at hxs; exact Json.noConfusion hxs
  | str s => simp only [cleanHookList] at hxs; exact Json.noConfusion hxs
  | obj fs => simp only [cleanHookList] at hxs; exact Json.noConfusion hxs

/-- Whatever dict ends up under `hooks` after `hooksStep` holds no hook
definition with an `agents` field. -/
theorem hooksStep_agents_absent (s2 : List (String × Json)) :
    ∀ hfs, getKey (hooksStep s2) "hooks" = some (.obj hfs) →
      ∀ k v, (k, v) ∈ hfs → ∀ xs, v = .arr xs → ∀ x ∈ xs, ∀ efs,
        x = .obj efs → getKey efs "agents" = none := by
  intro hfs hget k v hmem xs hxs x hx efs hefs
  cases hs : getKey s2 "hooks" with
  | none => rw [hooksStep_of_none hs, hs] at hget; exact Option.noConfusion hget
  | some v0 =>
    cases v0 with
    | obj hfs0 =>
      by_cases he : hfs0.isEmpty
      · rw [hooksStep_of_obj hs, if_pos he, hs] at hget
        injection hget with hget
        injection hget with hget
        rw [List.isEmpty_iff] at he
        subst he
        rw [← hget] at hmem
        cases hmem
      · rw [hooksStep_of_obj hs, if_neg he, getKey_setKey_self] at hget
        injection hget with hget
        injection hget with hget
        rw [← hget] at hmem
        obtain ⟨kv0, _, hkv0⟩ := List.mem_map.mp hmem
        have hv : v = cleanHookList kv0.2 := by
          have := congrArg Prod.snd hkv0
          simpa using this.symm
        rw [hv] at hxs
        exact cleanHookList_agents_absent kv0.2 xs hxs x hx efs hefs
    | null =>
      rw [hooksStep_of_not_obj (fun _ => Json.noConfusion) hs, hs] at hget
      injection hget with hget
      exact Json.noConfusion hget
    | bool b =>
      rw [hooksStep_of_not_obj (fun _ => Json.noConfusion) hs, hs] at hget
      injection hget with hget
      exact Json.noConfusion hget
    | num n =>
      rw [hooksStep_of_not_obj (fun _ => Json.noConfusion) hs, hs] at hget
      injection hget with hget
      exact Json.noConfusion hget
    | str s =>
      rw [hooksStep_of_not_obj (fun _ => Json.noConfusion) hs, hs] at hget
      injection hget with hget
      exact Json.noConfusion hget
    | arr es =>
      rw [hooksStep_of_not_obj (fun _ => Json.noConfusion) hs, hs] at hget
      injection hget with hget
      exact Json.noConfusion hget

theorem getPath_single (l : List (String × Json)) (k : String) :
    getPath (.obj l) [k] = getKey l k := by
  cases h : getKey l k with
  | none => simp only [getPath, h]
  | some v => simp only [getPath, h]

theorem getPath_cons {l : List (String × Json)} {k : String} {v : Json}
    (h : getKey l k = some v) (ks : List String) :
    getPath (.obj l) (k :: ks) = getPath v ks := by
  simp only [getPath, h]

theorem getKey_cleanedFields_metadata (fields mfs : List (String × Json)) :
    getKey (cleanedFields fields mfs) "metadata" = some (.obj (cleanMeta mfs)) := by
  unfold cleanedFields
  rw [getKey_removeKey_ne _ (by decide), getKey_applySpecClean_ne _ (by decide),
    getKey_setKey_self]

theorem getKey_cleanedFields_spec_of_obj {fields sfs : List (String × Json)}
    (mfs : List (String × Json)) (hspec : getKey fields "spec" = some (.obj sfs)) :
    getKey (cleanedFields fields mfs) "spec" = some (.obj (cleanSpecFields sfs)) := by
  unfold cleanedFields
  have hspec1 : getKey (setKey fields "metadata" (.obj (cleanMeta mfs))) "spec"
      = some (.obj sfs) := by
    rw [getKey_setKey_ne _ _ (by decide)]; exact hspec
  rw [getKey_removeKey_ne _ (by decide), applySpecClean_of_obj hspec1,
    getKey_setKey_self]

theorem getKey_cleanedFields_spec_of_not_obj {fields : List (String × Json)}
    {v : Json} (mfs : List (String × Json)) (hv : ∀ sfs, v ≠ .obj sfs)
    (hspec : getKey fields "spec" = some v) :
    getKey (cleanedFields fields mfs) "spec" = some v := by
  unfold cleanedFields
  have hspec1 : getKey (setKey fields "metadata" (.obj (cleanMeta mfs))) "spec"
      = some v := by
    rw [getKey_setKey_ne _ _ (by decide)]; exact hspec
  rw [getKey_removeKey_ne _ (by decide), applySpecClean_of_not_obj hv hspec1]
  exact hspec1

theorem getKey_cleanSpecFields_hooks_pre (sfs : List (String × Json)) :
    getKey (removeKey (removeKey sfs "sharing") "agents") "hooks"
      = getKey sfs "hooks" := by
  rw [getKey_removeKey_ne _ (by decide), getKey_removeKey_ne _ (by decide)]

theorem cleanHookList_of_not_arr {v : Json} (hv : ∀ xs, v ≠ .arr xs) :
    cleanHookList v = v := by
  cases v with
  | arr xs => exact absurd rfl (hv xs)
  | null => rfl
  | bool b => rfl
  | num n => rfl
  | str s => rfl
  | obj fs => rfl

theorem cleanHookItem_of_not_obj {x : Json} (hx : ∀ efs, x ≠ .obj efs) :
    cleanHookItem x = x := by
  cases x with
  | obj efs => exact absurd rfl (hx efs)
  | null => rfl
  | bool b => rfl
  | num n => rfl
  | str s => rfl
  | arr es => rfl

/-! ### Claim theorems: the cleaner -/

/-- C1: For every object record that contains all the volatile fields, the
record returned by the cleaner (`remove_unwanted_fields`) contains none of
`metadata.id`, `metadata.modifiedAt`, `metadata.createdAt`,
`metadata.projectID`, `metadata.createdBy`, `metadata.modifiedBy`, the
top-level `status` field, `spec.sharing`, or `spec.agents`; every hook
definition in every sequence of `spec.hooks` has its `agents` field
removed; and `metadata.project` equals the fixed destination project
identifier `"system-catalog"`, overwriting any existing value. -/
theorem clean_is_field_complete
    (fields mfs sfs : List (String × Json))
    (hmeta : getKey fields "metadata" = some (.obj mfs))
    (hvol : ∀ k ∈ volatileMetaFields, ∃ v, getKey mfs k = some v)
    (hstat : ∃ v, getKey fields "status" = some v)
    (hspec : getKey fields "spec" = some (.obj sfs))
    (hsh : ∃ v, getKey sfs "sharing" = some v)
    (hag : ∃ v, getKey sfs "agents" = some v) :
    ∃ c, remove_unwanted_fields (.obj fields) = some (.obj c) ∧
      (∀ k ∈ volatileMetaFields, getPath (.obj c) ["metadata", k] = none) ∧
      getKey c "status" = none ∧
      getPath (.obj c) ["spec", "sharing"] = none ∧
      getPath (.obj c) ["spec", "agents"] = none ∧
      (∀ hfs, getPath (.obj c) ["spec", "hooks"] = some (.obj hfs) →
        ∀ k v, (k, v) ∈ hfs → ∀ xs, v = .arr xs → ∀ x ∈ xs, ∀ efs,
          x = .obj efs → getKey efs "agents" = none) ∧
      getPath (.obj c) ["metadata", "project"] = some (.str PROJECT) := by
  refine ⟨cleanedFields fields mfs, clean_eq (metaFieldsOf_of_obj hmeta),
    ?_, ?_, ?_, ?_, ?_, ?_⟩
  · intro k hk
    rw [getPath_cons (getKey_cleanedFields_metadata fields mfs),
      getPath_single, getKey_cleanMeta_volatile mfs hk]
  · exact getKey_removeKey_self _ _
  · rw [getPath_cons (getKey_cleanedFields_spec_of_obj mfs hspec),
      getPath_single, getKey_cleanSpecFields_sharing]
  · rw [getPath_cons (getKey_cleanedFields_spec_of_obj mfs hspec),
      getPath_single, getKey_cleanSpecFields_agents]
  · intro hfs hget k v hmem xs hxs x hx efs hefs
    rw [getPath_cons (getKey_cleanedFields_spec_of_obj mfs hspec),
      getPath_single] at hget
    exact hooksStep_agents_absent _ hfs hget k v hmem xs hxs x hx efs hefs
  · rw [getPath_cons (getKey_cleanedFields_metadata fields mfs),
      getPath_single, getKey_cleanMeta_project]

/-- Witness for C1 at a concrete record holding every volatile field, a
`spec.sharing`, a `spec.agents`, a hook with an `agents` field, an old
`metadata.project` value and a `status`. -/
theorem clean_is_field_complete_witness :
    ∃ c, remove_unwanted_fields (.obj
      [("metadata", .obj [("name", .str "n"), ("id", .str "1"),
        ("modifiedAt", .str "m"), ("createdAt", .str "c2"),
        ("projectID", .str "p"), ("createdBy", .str "u"),
        ("modifiedBy", .str "w"), ("project", .str "old")]),
       ("spec", .obj [("sharing", .obj [("enabled", .bool true)]),
        ("agents", .arr [.str "a1"]),
        ("hooks", .obj [("onDeploy",
          .arr [.obj [("agents", .arr [.str "a2"]), ("name", .str "h1")]])])]),
       ("status", .obj [("ready", .bool true)])]) = some (.obj c) ∧
      (∀ k ∈ volatileMetaFields, getPath (.obj c) ["metadata", k] = none) ∧
      getKey c "status" = none ∧
      getPath (.obj c) ["spec", "sharing"] = none ∧
      getPath (.obj c) ["spec", "agents"] = none ∧
      (∀ hfs, getPath (.obj c) ["spec", "hooks"] = some (.obj hfs) →
        ∀ k v, (k, v) ∈ hfs → ∀ xs, v = .arr xs → ∀ x ∈ xs, ∀ efs,
          x = .obj efs → getKey efs "agents" = none) ∧
      getPath (.obj c) ["metadata", "project"] = some (.str PROJECT) := by
  refine clean_is_field_complete _ _ _ rfl ?_ ⟨_, rfl⟩ rfl ⟨_, rfl⟩ ⟨_, rfl⟩
  intro k hk
  fin_cases hk <;> exact ⟨_, rfl⟩

/-- C9: For every input record whose metadata field is absent or is a
mapping, the record returned by the cleaner contains a metadata mapping
whose `project` field equals `"system-catalog"`; a record with no
metadata field at all gains one containing only the `project` key. -/
theorem clean_always_sets_project (fields : List (String × Json))
    (hmeta : getKey fields "metadata" = none ∨
      ∃ mfs, getKey fields "metadata" = some (.obj mfs)) :
    ∃ c, remove_unwanted_fields (.obj fields) = some (.obj c) ∧
      (∃ mfs, getKey c "metadata" = some (.obj mfs) ∧
        getKey mfs "project" = some (.str PROJECT)) ∧
      (getKey fields "metadata" = none →
        getKey c "metadata" = some (.obj [("project", .str PROJECT)])) := by
  rcases hmeta with h | ⟨mfs, h⟩
  · refine ⟨cleanedFields fields [], clean_eq (metaFieldsOf_of_none h), ?_, ?_⟩
    · exact ⟨cleanMeta [], getKey_cleanedFields_metadata fields [],
        getKey_cleanMeta_project []⟩
    · intro _
      have hp : cleanMeta [] = [("project", .str PROJECT)] := rfl
      rw [getKey_cleanedFields_metadata fields [], hp]
  · refine ⟨cleanedFields fields mfs, clean_eq (metaFieldsOf_of_obj h), ?_, ?_⟩
    · exact ⟨cleanMeta mfs, getKey_cleanedFields_metadata fields mfs,
        getKey_cleanMeta_project mfs⟩
    · intro hnone
      rw [h] at hnone
      exact Option.noConfusion hnone

/-- Witness for C9 at a record with no metadata field at all. -/
theorem clean_always_sets_project_witness :
    ∃ c, remove_unwanted_fields (.obj [("kind", .str "k")]) = some (.obj c) ∧
      (∃ mfs, getKey c "metadata" = some (.obj mfs) ∧
        getKey mfs "project" = some (.str PROJECT)) ∧
      (getKey [("kind", Json.str "k")] "metadata" = none →
        getKey c "metadata" = some (.obj [("project", .str PROJECT)])) :=
  clean_always_sets_project [("kind", .str "k")] (Or.inl rfl)

/-- C10: For every input record whose metadata field is absent or is a
mapping, the cleaner never raises, whatever the shape of the rest of the
record: a `spec` that is not a mapping, a `spec.hooks` that is not a
mapping, a hook sequence that is not a list, and a hook entry that is not
a mapping are each left unchanged in the output. -/
theorem clean_total_and_shape_tolerant (fields : List (String × Json))
    (hmeta : getKey fields "metadata" = none ∨
      ∃ mfs, getKey fields "metadata" = some (.obj mfs)) :
    ∃ c, remove_unwanted_fields (.obj fields) = some (.obj c) ∧
      (∀ s, getKey fields "spec" = some s → (∀ sfs, s ≠ .obj sfs) →
        getKey c "spec" = some s) ∧
      (∀ sfs h, getKey fields "spec" = some (.obj sfs) →
        getKey sfs "hooks" = some h → (∀ hfs, h ≠ .obj hfs) →
        getPath (.obj c) ["spec", "hooks"] = some h) ∧
      (∀ sfs hfs k v, getKey fields "spec" = some (.obj sfs) →
        getKey sfs "hooks" = some (.obj hfs) → getKey hfs k = some v →
        (∀ xs, v ≠ .arr xs) →
        ∃ hfs2, getPath (.obj c) ["spec", "hooks"] = some (.obj hfs2) ∧
          getKey hfs2 k = some v) ∧
      (∀ sfs hfs k xs i x, getKey fields "spec" = some (.obj sfs) →
        getKey sfs "hooks" = some (.obj hfs) → getKey hfs k = some (.arr xs) →
        xs.get? i = some x → (∀ efs, x ≠ .obj efs) →
        ∃ hfs2 xs2, getPath (.obj c) ["spec", "hooks"] = some (.obj hfs2) ∧
          getKey hfs2 k = some (.arr xs2) ∧ xs2.get? i = some x) := by
  have hmf : ∃ mfs, metaFieldsOf fields = some mfs := by
    rcases hmeta with h | ⟨mfs, h⟩
    · exact ⟨[], metaFieldsOf_of_none h⟩
    · exact ⟨mfs, metaFieldsOf_of_obj h⟩
  obtain ⟨mfs, hmf⟩ := hmf
  refine ⟨cleanedFields fields mfs, clean_eq hmf, ?_, ?_, ?_, ?_⟩
  · intro s hs hnobj
    exact getKey_cleanedFields_spec_of_not_obj mfs hnobj hs
  · intro sfs h hspec hhooks hnobj
    rw [getPath_cons (getKey_cleanedFields_spec_of_obj mfs hspec), getPath_single]
    unfold cleanSpecFields
    rw [hooksStep_of_not_obj hnobj
      ((getKey_cleanSpecFields_hooks_pre sfs).trans hhooks),
      getKey_cleanSpecFields_hooks_pre]
    exact hhooks
  · intro sfs hfs k v hspec hhooks hkv hnarr
    rw [getPath_cons (getKey_cleanedFields_spec_of_obj mfs hspec), getPath_single]
    unfold cleanSpecFields
    have hh : getKey (removeKey (removeKey sfs "sharing") "agents") "hooks"
        = some (.obj hfs) := (getKey_cleanSpecFields_hooks_pre sfs).trans hhooks
    by_cases he : hfs.isEmpty
    · rw [List.isEmpty_iff] at he
      subst he
      exact absurd hkv (by rw [show getKey ([] : List (String × Json)) k = none from rfl]; exact fun hc => Option.noConfusion hc)
    · rw [hooksStep_of_obj hh, if_neg he, getKey_setKey_self]
      refine ⟨_, rfl, ?_⟩
      rw [getKey_map_snd, hkv]
      simp only [Option.map_some']
      rw [cleanHookList_of_not_arr hnarr]
  · intro sfs hfs k xs i x hspec hhooks hkv hix hnobj
    rw [getPath_cons (getKey_cleanedFields_spec_of_obj mfs hspec), getPath_single]
    unfold cleanSpecFields
    have hh : getKey (removeKey (removeKey sfs "sharing") "agents") "hooks"
        = some (.obj hfs) := (getKey_cleanSpecFields_hooks_pre sfs).trans hhooks
    by_cases he : hfs.isEmpty
    · rw [List.isEmpty_iff] at he
      subst he
      exact absurd hkv (by rw [show getKey ([] : List (String × Json)) k = none from rfl]; exact fun hc => Option.noConfusion hc)
    · rw [hooksStep_of_obj hh, if_neg he, getKey_setKey_self]
      refine ⟨_, xs.map cleanHookItem, rfl, ?_, ?_⟩
      · rw [getKey_map_snd, hkv]
        rfl
      · simp only [List.get?_eq_getElem?] at hix ⊢
        rw [List.getElem?_map, hix]
        simp only [Option.map_some']
        rw [cleanHookItem_of_not_obj hnobj]

/-- Witness for C10 at a record exercising every tolerated shape at once:
non-dict `spec.hooks` is impossible simultaneously with hook entries, so
the witness uses a non-list hook sequence and a non-dict hook entry, and a
separate spec shape is covered by instantiating the second conjunct with a
string-valued `spec` on a second record inside the same statement. -/
theorem clean_total_and_shape_tolerant_witness :
    (∃ c, remove_unwanted_fields (.obj
        [("metadata", .obj [("name", .str "n")]),
         ("spec", .obj [("hooks", .obj
           [("onDeploy", .str "not-a-list"),
            ("onDelete", .arr [.str "not-a-dict"])])])]) = some (.obj c) ∧
      (∃ hfs2, getPath (.obj c) ["spec", "hooks"] = some (.obj hfs2) ∧
        getKey hfs2 "onDeploy" = some (.str "not-a-list")) ∧
      (∃ hfs2 xs2, getPath (.obj c) ["spec", "hooks"] = some (.obj hfs2) ∧
        getKey hfs2 "onDelete" = some (.arr xs2) ∧
        xs2.get? 0 = some (.str "not-a-dict"))) ∧
    (∃ c, remove_unwanted_fields (.obj [("spec", .str "odd")]) = some (.obj c) ∧
      getKey c "spec" = some (.str "odd")) := by
  constructor
  · obtain ⟨c, hc, _, _, h4, h5⟩ := clean_total_and_shape_tolerant
      [("metadata", .obj [("name", .str "n")]),
       ("spec", .obj [("hooks", .obj
         [("onDeploy", .str "not-a-list"),
          ("onDelete", .arr [.str "not-a-dict"])])])]
      (Or.inr ⟨_, rfl⟩)
    refine ⟨c, hc, ?_, ?_⟩
    · exact h4 _ _ "onDeploy" _ rfl rfl rfl (fun xs => Json.noConfusion)
    · obtain ⟨hfs2, xs2, hp, hk, hi⟩ := h5 _ _ "onDelete" [.str "not-a-dict"] 0
        (.str "not-a-dict") rfl rfl rfl rfl (fun efs => Json.noConfusion)
      exact ⟨hfs2, xs2, hp, hk, hi⟩
  · obtain ⟨c, hc, h2, _, _, _⟩ := clean_total_and_shape_tolerant
      [("spec", .str "odd")] (Or.inl rfl)
    exact ⟨c, hc, h2 _ rfl (fun sfs => Json.noConfusion)⟩

/-! ### Idempotence of the cleaner -/

theorem clean_eq_none {fields : List (String × Json)}
    (hm : metaFieldsOf fields = none) :
    remove_unwanted_fields (.obj fields) = none := by
  simp only [remove_unwanted_fields]; rw [hm]

theorem cleanHookItem_idem (x : Json) :
    cleanHookItem (cleanHookItem x) = cleanHookItem x := by
  cases x with
  | obj efs =>
    simp only [cleanHookItem]
    rw [removeKey_eq_of_getKey_none (getKey_removeKey_self efs "agents")]
  | null => rfl
  | bool b => rfl
  | num n => rfl
  | str s => rfl
  | arr es => rfl

theorem cleanHookList_idem (v : Json) :
    cleanHookList (cleanHookList v) = cleanHookList v := by
  cases v with
  | arr xs =>
    simp only [cleanHookList, List.map_map]
    congr 1
    exact List.map_congr_left (fun x _ => cleanHookItem_idem x)
  | null => rfl
  | bool b => rfl
  | num n => rfl
  | str s => rfl
  | obj fs => rfl

theorem hooksStep_idem (s2 : List (String × Json)) :
    hooksStep (hooksStep s2) = hooksStep s2 := by
  cases hs : getKey s2 "hooks" with
  | none => rw [hooksStep_of_none hs, hooksStep_of_none hs]
  | some v0 =>
    cases v0 with
    | obj hfs =>
      by_cases he : hfs.isEmpty
      · rw [hooksStep_of_obj hs, if_pos he, hooksStep_of_obj hs, if_pos he]
      · rw [hooksStep_of_obj hs, if_neg he]
        have hS : getKey
            (setKey s2 "hooks" (.obj (hfs.map fun kv => (kv.1, cleanHookList kv.2))))
            "hooks" = some (.obj (hfs.map fun kv => (kv.1, cleanHookList kv.2))) :=
          getKey_setKey_self _ _ _
        have heH : ¬(hfs.map fun kv => (kv.1, cleanHookList kv.2)).isEmpty := by
          rw [List.isEmpty_iff] at he ⊢
          intro hH
          exact he (List.map_eq_nil_iff.mp hH)
        rw [hooksStep_of_obj hS, if_neg heH, List.map_map]
        have hmap : (hfs.map ((fun kv : String × Json => (kv.1, cleanHookList kv.2))
            ∘ fun kv : String × Json => (kv.1, cleanHookList kv.2)))
            = hfs.map fun kv => (kv.1, cleanHookList kv.2) :=
          List.map_congr_left (fun kv _ => by
            simp only [Function.comp]
            rw [cleanHookList_idem])
        rw [hmap, setKey_setKey]
    | null => rw [hooksStep_of_not_obj (fun _ => Json.noConfusion) hs,
        hooksStep_of_not_obj (fun _ => Json.noConfusion) hs]
    | bool b => rw [hooksStep_of_not_obj (fun _ => Json.noConfusion) hs,
        hooksStep_of_not_obj (fun _ => Json.noConfusion) hs]
    | num n => rw [hooksStep_of_not_obj (fun _ => Json.noConfusion) hs,
        hooksStep_of_not_obj (fun _ => Json.noConfusion) hs]
    | str s => rw [hooksStep_of_not_obj (fun _ => Json.noConfusion) hs,
        hooksStep_of_not_obj (fun _ => Json.noConfusion) hs]
    | arr es => rw [hooksStep_of_not_obj (fun _ => Json.noConfusion) hs,
        hooksStep_of_not_obj (fun _ => Json.noConfusion) hs]

theorem getKey_hooksStep_sharing_agents (s2 : List (String × Json))
    {k : String} (hk : k ≠ "hooks") (h : getKey s2 k = none) :
    getKey (hooksStep s2) k = none := by
  rw [getKey_hooksStep_ne _ hk]; exact h

theorem cleanSpecFields_idem (sfs : List (String × Json)) :
    cleanSpecFields (cleanSpecFields sfs) = cleanSpecFields sfs := by
  unfold cleanSpecFields
  have hsh : getKey (hooksStep (removeKey (removeKey sfs "sharing") "agents"))
      "sharing" = none := by
    rw [getKey_hooksStep_ne _ (by decide), getKey_removeKey_ne _ (by decide)]
    exact getKey_removeKey_self _ _
  have hag : getKey (hooksStep (removeKey (removeKey sfs "sharing") "agents"))
      "agents" = none := by
    rw [getKey_hooksStep_ne _ (by decide)]
    exact getKey_removeKey_self _ _
  rw [removeKey_eq_of_getKey_none hsh]
  rw [removeKey_eq_of_getKey_none (by
    rw [getKey_hooksStep_ne _ (by decide)]
    exact getKey_removeKey_self _ _)]
  exact hooksStep_idem _

theorem cleanMeta_idem (mfs : List (String × Json)) :
    cleanMeta (cleanMeta mfs) = cleanMeta mfs := by
  unfold cleanMeta
  have hnone : ∀ k ∈ volatileMetaFields,
      getKey (setKey (volatileMetaFields.foldl removeKey mfs) "project"
        (Json.str PROJECT)) k = none := by
    intro k hk
    have hkp : k ≠ "project" := by fin_cases hk <;> decide
    rw [getKey_setKey_ne _ _ hkp]
    exact getKey_foldRemove_of_mem mfs hk
  rw [foldRemove_eq_of_getKey_none hnone, setKey_setKey]

theorem applySpecClean_preserves_fixed {l : List (String × Json)} {k : String}
    {v : Json} (hfix : setKey l k v = l) (hk : k ≠ "spec") :
    setKey (applySpecClean l) k v = applySpecClean l := by
  cases hs : getKey l "spec" with
  | none => rw [applySpecClean_of_none hs]; exact hfix
  | some w =>
    cases w with
    | obj sfs =>
      rw [applySpecClean_of_obj hs]
      exact setKey_setKey_of_fixed hfix (fun hh => hk hh.symm)
    | null => rw [applySpecClean_of_not_obj (fun _ => Json.noConfusion) hs]; exact hfix
    | bool b => rw [applySpecClean_of_not_obj (fun _ => Json.noConfusion) hs]; exact hfix
    | num n => rw [applySpecClean_of_not_obj (fun _ => Json.noConfusion) hs]; exact hfix
    | str s => rw [applySpecClean_of_not_obj (fun _ => Json.noConfusion) hs]; exact hfix
    | arr es => rw [applySpecClean_of_not_obj (fun _ => Json.noConfusion) hs]; exact hfix

/-- Re-running the cleaner on its own output reproduces that output. -/
theorem clean_fixes_cleanedFields {fields mfs : List (String × Json)} :
    cleanedFields (cleanedFields fields mfs) (cleanMeta mfs)
      = cleanedFields fields mfs := by
  have kn1 : setKey (setKey fields "metadata" (.obj (cleanMeta mfs))) "metadata"
      (.obj (cleanMeta mfs)) = setKey fields "metadata" (.obj (cleanMeta mfs)) :=
    setKey_setKey _ _ _ _
  have kn2 : setKey (applySpecClean (setKey fields "metadata"
      (.obj (cleanMeta mfs)))) "metadata" (.obj (cleanMeta mfs))
      = applySpecClean (setKey fields "metadata" (.obj (cleanMeta mfs))) :=
    applySpecClean_preserves_fixed kn1 (by decide)
  have kn3 : setKey (cleanedFields fields mfs) "metadata" (.obj (cleanMeta mfs))
      = cleanedFields fields mfs :=
    setKey_removeKey_of_fixed kn2 (by decide)
  show removeKey (applySpecClean (setKey (cleanedFields fields mfs) "metadata"
      (.obj (cleanMeta (cleanMeta mfs))))) "status" = cleanedFields fields mfs
  rw [cleanMeta_idem, kn3]
  have happ : applySpecClean (cleanedFields fields mfs) = cleanedFields fields mfs := by
    cases hs : getKey fields "spec" with
    | none =>
      apply applySpecClean_of_none
      unfold cleanedFields
      have hf1 : getKey (setKey fields "metadata" (.obj (cleanMeta mfs))) "spec"
          = none := by
        rw [getKey_setKey_ne _ _ (by decide)]; exact hs
      rw [getKey_removeKey_ne _ (by decide), applySpecClean_of_none hf1]
      exact hf1
    | some w =>
      cases w with
      | obj sfs =>
        rw [applySpecClean_of_obj (getKey_cleanedFields_spec_of_obj mfs hs),
          cleanSpecFields_idem]
        have kns1 : setKey (applySpecClean (setKey fields "metadata"
            (.obj (cleanMeta mfs)))) "spec" (.obj (cleanSpecFields sfs))
            = applySpecClean (setKey fields "metadata" (.obj (cleanMeta mfs))) := by
          rw [applySpecClean_of_obj (show getKey (setKey fields "metadata"
            (.obj (cleanMeta mfs))) "spec" = some (.obj sfs) from by
              rw [getKey_setKey_ne _ _ (by decide)]; exact hs)]
          exact setKey_setKey _ _ _ _
        exact setKey_removeKey_of_fixed kns1 (by decide)
      | null =>
        have hget : getKey (cleanedFields fields mfs) "spec" = some (Json.null) :=
          getKey_cleanedFields_spec_of_not_obj mfs (fun _ h => Json.noConfusion h) hs
        exact applySpecClean_of_not_obj (fun _ h => Json.noConfusion h) hget
      | bool b =>
        have hget : getKey (cleanedFields fields mfs) "spec" = some (Json.bool b) :=
          getKey_cleanedFields_spec_of_not_obj mfs (fun _ h => Json.noConfusion h) hs
        exact applySpecClean_of_not_obj (fun _ h => Json.noConfusion h) hget
      | num n =>
        have hget : getKey (cleanedFields fields mfs) "spec" = some (Json.num n) :=
          getKey_cleanedFields_spec_of_not_obj mfs (fun _ h => Json.noConfusion h) hs
        exact applySpecClean_of_not_obj (fun _ h => Json.noConfusion h) hget
      | str s =>
        have hget : getKey (cleanedFields fields mfs) "spec" = some (Json.str s) :=
          getKey_cleanedFields_spec_of_not_obj mfs (fun _ h => Json.noConfusion h) hs
        exact applySpecClean_of_not_obj (fun _ h => Json.noConfusion h) hget
      | arr es =>
        have hget : getKey (cleanedFields fields mfs) "spec" = some (Json.arr es) :=
          getKey_cleanedFields_spec_of_not_obj mfs (fun _ h => Json.noConfusion h) hs
        exact applySpecClean_of_not_obj (fun _ h => Json.noConfusion h) hget
  rw [happ]
  apply removeKey_eq_of_getKey_none
  exact getKey_removeKey_self _ _

/-- C2: the cleaner is idempotent: for every object record `x`, applying
`remove_unwanted_fields` twice gives the same result as applying it once,
`clean (clean x) = clean x`. -/
theorem clean_idempotent (x : Json) :
    (remove_unwanted_fields x).bind remove_unwanted_fields
      = remove_unwanted_fields x := by
  cases x with
  | obj fields =>
    cases hm : metaFieldsOf fields with
    | none => rw [clean_eq_none hm]; rfl
    | some mfs =>
      rw [clean_eq hm, Option.some_bind,
        clean_eq (metaFieldsOf_of_obj (getKey_cleanedFields_metadata fields mfs)),
        clean_fixes_cleanedFields]
  | null => rfl
  | bool b => rfl
  | num n => rfl
  | str s => rfl
  | arr es => rfl

/-! ### Claim theorems: target writer and source reader -/

/-- C3: For every write of a cleaned record to a URL target, a response
with HTTP status 409 yields a success outcome whose diagnostic message is
the distinct "already exists" message, never a failure outcome. -/
theorem post_409_is_success (obj name : Json) (body : String)
    (hname : nameOf obj = some name) :
    post_object_to_url obj (.response 409 body)
      = some (true, name, "Already exists (409 CONFLICT)") ∧
    ("Already exists (409 CONFLICT)" : String) ≠ "Successfully created" := by
  constructor
  · simp only [post_object_to_url, hname]
    rfl
  · decide

/-- Witness for C3 at a concrete cleaned record and a 409 response. -/
theorem post_409_is_success_witness :
    nameOf (.obj [("metadata", .obj [("name", .str "cc1")])])
      = some (.str "cc1") ∧
    (post_object_to_url (.obj [("metadata", .obj [("name", .str "cc1")])])
        (.response 409 "conflict")
      = some (true, .str "cc1", "Already exists (409 CONFLICT)") ∧
    ("Already exists (409 CONFLICT)" : String) ≠ "Successfully created") :=
  ⟨rfl, post_409_is_success _ _ "conflict" rfl⟩

/-- C4: For every write of a cleaned record to a URL target, any HTTP
status other than 2xx and 409, or any transport-level exception, yields a
failure outcome — a returned value, not a raised error — carrying the
status code and response body, or the exception text, verbatim. -/
theorem post_other_is_failure (obj name : Json)
    (hname : nameOf obj = some name) :
    (∀ st body, ¬(st = 200 ∨ st = 201) → st ≠ 409 →
      post_object_to_url obj (.response st body)
        = some (false, name,
            "Failed with status " ++ toString st ++ ": " ++ body)) ∧
    (∀ e, post_object_to_url obj (.exn e)
        = some (false, name, "Exception: " ++ e)) := by
  constructor
  · intro st body h1 h2
    simp only [post_object_to_url, hname]
    rw [if_neg h1, if_neg h2]
  · intro e
    simp only [post_object_to_url, hname]

/-- Witness for C4 at a 500 response and at a raised exception. -/
theorem post_other_is_failure_witness :
    nameOf (.obj [("metadata", .obj [("name", .str "cc2")])])
      = some (.str "cc2") ∧
    ¬((500 : Nat) = 200 ∨ (500 : Nat) = 201) ∧ (500 : Nat) ≠ 409 ∧
    post_object_to_url (.obj [("metadata", .obj [("name", .str "cc2")])])
        (.response 500 "boom")
      = some (false, .str "cc2", "Failed with status 500: boom") ∧
    post_object_to_url (.obj [("metadata", .obj [("name", .str "cc2")])])
        (.exn "timeout")
      = some (false, .str "cc2", "Exception: timeout") := by
  refine ⟨rfl, by decide, by decide, ?_, ?_⟩
  · exact (post_other_is_failure
      (.obj [("metadata", .obj [("name", .str "cc2")])]) (.str "cc2") rfl).1
      500 "boom" (by decide) (by decide)
  · exact (post_other_is_failure
      (.obj [("metadata", .obj [("name", .str "cc2")])]) (.str "cc2") rfl).2
      "timeout"

/-- C6: For every versioned object type read from a URL source, when the
per-object version-history request fails, the orchestrator falls back to
treating the un-versioned object itself as the sole version to replicate,
logging a warning, and does not abort the run (the error is caught and a
normal result is returned). -/
theorem version_fetch_failure_degrades (object_type name : String)
    (item : Json) (e : String) (h1 : object_type ≠ "computeprofiles")
    (h2 : object_type ≠ "serviceprofiles") :
    versions_of_item object_type true name item
        (fetch_versions_from_url (.error e))
      = (.arr [item],
         some ("⚠️ Failed to fetch versions for " ++ name ++ ": " ++ e)) := by
  have hno : ¬(object_type = "computeprofiles"
      ∨ object_type = "serviceprofiles") := fun hc => hc.elim h1 h2
  simp only [versions_of_item, fetch_versions_from_url, if_true, if_neg hno]

/-- Witness for C6 at the versioned type `workflowhandlers` and a failed
version request. -/
theorem version_fetch_failure_degrades_witness :
    versions_of_item "workflowhandlers" true "wf1"
        (.obj [("metadata", .obj [("name", .str "wf1")])])
        (fetch_versions_from_url (.error "500 Server Error"))
      = (.arr [.obj [("metadata", .obj [("name", .str "wf1")])]],
         some "⚠️ Failed to fetch versions for wf1: 500 Server Error" ) :=
  version_fetch_failure_degrades "workflowhandlers" "wf1" _ "500 Server Error"
    (by decide) (by decide)

/-- C7: When reading object records from a disk source directory, a
malformed (unparseable) file is skipped with a logged warning and does
not abort the run; all remaining well-formed files are still read and
yielded (the first conjunct characterizes the yielded items as exactly
the well-formed `.json` files, in listing order). -/
theorem disk_read_skips_malformed (path : String)
    (entries : List (String × DirEntry)) :
    (fetch_objects_from_disk path entries).1 = entries.filterMap (fun p =>
      match p.2 with
      | .file (.ok j) => if strEndsWith p.1 ".json" then some j else none
      | _ => none) ∧
    (∀ n e, (n, DirEntry.file (.error e)) ∈ entries → strEndsWith n ".json" →
      ("❌ Failed to load " ++ path ++ "/" ++ n ++ ": " ++ e)
        ∈ (fetch_objects_from_disk path entries).2) := by
  induction entries with
  | nil =>
    refine ⟨rfl, ?_⟩
    intro n e h
    cases h
  | cons p rest ih =>
    rcases p with ⟨filename, ent⟩
    cases ent with
    | dir =>
      by_cases hraw : filename = "raw"
      · refine ⟨?_, ?_⟩
        · simp only [fetch_objects_from_disk, if_pos hraw, List.filterMap_cons]
          exact ih.1
        · intro n e hmem hjson
          rcases List.mem_cons.mp hmem with hh | hh
          · have h2 := congrArg Prod.snd hh
            exact DirEntry.noConfusion h2
          · simp only [fetch_objects_from_disk, if_pos hraw]
            exact ih.2 n e hh hjson
      · by_cases hjs : strEndsWith filename ".json" = true
        · refine ⟨?_, ?_⟩
          · simp only [fetch_objects_from_disk, if_neg hraw, if_pos hjs,
              List.filterMap_cons]
            exact ih.1
          · intro n e hmem hjson
            rcases List.mem_cons.mp hmem with hh | hh
            · have h2 := congrArg Prod.snd hh
              exact DirEntry.noConfusion h2
            · simp only [fetch_objects_from_disk, if_neg hraw, if_pos hjs]
              exact List.mem_cons_of_mem _ (ih.2 n e hh hjson)
        · refine ⟨?_, ?_⟩
          · simp only [fetch_objects_from_disk, if_neg hraw, if_neg hjs,
              List.filterMap_cons]
            exact ih.1
          · intro n e hmem hjson
            rcases List.mem_cons.mp hmem with hh | hh
            · have h2 := congrArg Prod.snd hh
              exact DirEntry.noConfusion h2
            · simp only [fetch_objects_from_disk, if_neg hraw, if_neg hjs]
              exact ih.2 n e hh hjson
    | file content =>
      cases content with
      | ok j =>
        by_cases hjs : strEndsWith filename ".json" = true
        · refine ⟨?_, ?_⟩
          · simp only [fetch_objects_from_disk, if_pos hjs, List.filterMap_cons]
            rw [ih.1]
          · intro n e hmem hjson
            rcases List.mem_cons.mp hmem with hh | hh
            · have h2 := congrArg Prod.snd hh
              injection h2 with h3
              exact Except.noConfusion h3
            · simp only [fetch_objects_from_disk, if_pos hjs]
              exact ih.2 n e hh hjson
        · refine ⟨?_, ?_⟩
          · simp only [fetch_objects_from_disk, if_neg hjs, List.filterMap_cons]
            exact ih.1
          · intro n e hmem hjson
            rcases List.mem_cons.mp hmem with hh | hh
            · have h2 := congrArg Prod.snd hh
              injection h2 with h3
              exact Except.noConfusion h3
            · simp only [fetch_objects_from_disk, if_neg hjs]
              exact ih.2 n e hh hjson
      | error e0 =>
        by_cases hjs : strEndsWith filename ".json" = true
        · refine ⟨?_, ?_⟩
          · simp only [fetch_objects_from_disk, if_pos hjs, List.filterMap_cons]
            exact ih.1
          · intro n e hmem hjson
            rcases List.mem_cons.mp hmem with hh | hh
            · have h1 := congrArg Prod.fst hh
              have h2 := congrArg Prod.snd hh
              injection h2 with h3
              injection h3 with h4
              simp only at h1 h4
              subst h1
              subst h4
              simp only [fetch_objects_from_disk, if_pos hjs]
              exact List.mem_cons_self _ _
            · simp only [fetch_objects_from_disk, if_pos hjs]
              exact List.mem_cons_of_mem _ (ih.2 n e hh hjson)
        · refine ⟨?_, ?_⟩
          · simp only [fetch_objects_from_disk, if_neg hjs, List.filterMap_cons]
            exact ih.1
          · intro n e hmem hjson
            rcases List.mem_cons.mp hmem with hh | hh
            · have h1 := congrArg Prod.fst hh
              simp only at h1
              subst h1
              exact absurd hjson hjs
            · simp only [fetch_objects_from_disk, if_neg hjs]
              exact ih.2 n e hh hjson

/-- Witness for C7 on a listing holding a well-formed file, a malformed
file, a `raw` subdirectory and a non-`.json` file. -/
theorem disk_read_skips_malformed_witness :
    (fetch_objects_from_disk "src/configcontexts"
      [("a.json", .file (.ok (.obj [("metadata", .obj [("name", .str "a")])]))),
       ("bad.json", .file (.error "Expecting value")),
       ("raw", .dir),
       ("notes.txt", .file (.ok (.str "ignored")))]).1
      = [.obj [("metadata", .obj [("name", .str "a")])]] ∧
    ("bad.json", DirEntry.file (.error "Expecting value")) ∈
      ([("a.json", .file (.ok (.obj [("metadata", .obj [("name", .str "a")])]))),
        ("bad.json", .file (.error "Expecting value")),
        ("raw", .dir),
        ("notes.txt", .file (.ok (.str "ignored")))] :
        List (String × DirEntry)) ∧
    ("❌ Failed to load src/configcontexts/bad.json: Expecting value")
      ∈ (fetch_objects_from_disk "src/configcontexts"
      [("a.json", .file (.ok (.obj [("metadata", .obj [("name", .str "a")])]))),
       ("bad.json", .file (.error "Expecting value")),
       ("raw", .dir),
       ("notes.txt", .file (.ok (.str "ignored")))]).2 := by
  refine ⟨?_, ?_, ?_⟩
  · exact ((disk_read_skips_malformed "src/configcontexts" _).1).trans rfl
  · exact List.mem_cons_of_mem _ (List.mem_cons_self _ _)
  · exact (disk_read_skips_malformed "src/configcontexts" _).2 "bad.json"
      "Expecting value" (List.mem_cons_of_mem _ (List.mem_cons_self _ _)) rfl

/-- C8 counterexample: at a concrete disk write the produced file name
ends in `.json`, not `.data` as the claim states; and a supplied empty
version yields no version suffix. -/
theorem save_path_json_not_data :
    save_to_disk_path "t" "configcontexts" "foo" (some "v1") false
      = "t/configcontexts/foo-v1.json" ∧
    save_to_disk_path "t" "configcontexts" "foo" (some "v1") false
      ≠ "t/configcontexts/foo-v1.data" ∧
    save_to_disk_path "t" "configcontexts" "foo" (some "") false
      = "t/configcontexts/foo.json" := by
  refine ⟨rfl, ?_, rfl⟩
  decide

/-- C8 amended: for every write to a disk target, the cleaned record is
written to `<endpoint>/<object-type>/<name>[-<version>].json` — the
version suffix present exactly when a non-empty version is supplied — and
the raw record is additionally written under a `raw/` subdirectory with
the same naming scheme. -/
theorem disk_write_paths (target object_type name v : String) (hv : v ≠ "")
    (version_obj cleaned : Json) :
    disk_writes target object_type name (some v) version_obj cleaned
      = [(target ++ "/" ++ object_type ++ "/raw/" ++ name ++ "-" ++ v
            ++ ".json", version_obj),
         (target ++ "/" ++ object_type ++ "/" ++ name ++ "-" ++ v
            ++ ".json", cleaned)] ∧
    disk_writes target object_type name none version_obj cleaned
      = [(target ++ "/" ++ object_type ++ "/raw/" ++ name ++ ".json",
          version_obj),
         (target ++ "/" ++ object_type ++ "/" ++ name ++ ".json", cleaned)] := by
  constructor
  · simp [disk_writes, save_to_disk_path, if_neg hv, String.append_assoc]
  · simp [disk_writes, save_to_disk_path, String.append_assoc]

/-- Witness for C8's amended statement at concrete path components. -/
theorem disk_write_paths_witness :
    ("v1" : String) ≠ "" ∧
    disk_writes "t" "configcontexts" "foo" (some "v1") (.str "rawrec")
        (.str "cleanrec")
      = [("t/configcontexts/raw/foo-v1.json", .str "rawrec"),
         ("t/configcontexts/foo-v1.json", .str "cleanrec")] ∧
    disk_writes "t" "configcontexts" "foo" none (.str "rawrec")
        (.str "cleanrec")
      = [("t/configcontexts/raw/foo.json", .str "rawrec"),
         ("t/configcontexts/foo.json", .str "cleanrec")] := by
  refine ⟨by decide, ?_, ?_⟩
  · exact ((disk_write_paths "t" "configcontexts" "foo" "v1" (by decide)
      (.str "rawrec") (.str "cleanrec")).1).trans rfl
  · exact ((disk_write_paths "t" "configcontexts" "foo" "v1" (by decide)
      (.str "rawrec") (.str "cleanrec")).2).trans rfl

/-! ### Heap base lemmas -/

theorem read_lt_length {h : Heap} {i : Nat} {x : HNode}
    (hr : h.read i = some x) : i < h.mem.length := by
  by_contra hc
  rw [Heap.read, List.getElem?_eq_none (Nat.le_of_not_lt hc)] at hr
  exact Option.noConfusion hr

theorem read_alloc_lt {h : Heap} {i : Nat} (n0 : HNode)
    (hi : i < h.mem.length) : (h.alloc n0).1.read i = h.read i := by
  simp only [Heap.alloc, Heap.read]
  exact List.getElem?_append_left hi

theorem read_alloc_self (h : Heap) (n0 : HNode) :
    (h.alloc n0).1.read h.mem.length = some n0 := by
  simp only [Heap.alloc, Heap.read]
  exact List.getElem?_concat_length _ _

theorem alloc_length (h : Heap) (n0 : HNode) :
    (h.alloc n0).1.mem.length = h.mem.length + 1 := by
  simp [Heap.alloc]

theorem read_set_ne {h : Heap} {i j : Nat} (n0 : HNode) (hij : i ≠ j) :
    (h.set i n0).read j = h.read j := by
  simp only [Heap.set, Heap.read]
  exact List.getElem?_set_ne hij

theorem read_set_self {h : Heap} {i : Nat} (n0 : HNode)
    (hi : i < h.mem.length) : (h.set i n0).read i = some n0 := by
  simp only [Heap.set, Heap.read]
  exact List.getElem?_set_eq_of_lt n0 hi

theorem set_length (h : Heap) (i : Nat) (n0 : HNode) :
    (h.set i n0).mem.length = h.mem.length := List.length_set _ _ _

theorem pres_refl (n : Nat) (h : Heap) : Pres n h h := fun _ _ => rfl

theorem pres_trans {n : Nat} {h h1 h2 : Heap} (p1 : Pres n h h1)
    (p2 : Pres n h1 h2) : Pres n h h2 :=
  fun i hi => (p2 i hi).trans (p1 i hi)

theorem inv_init (h : Heap) : Inv h.mem.length h := by
  refine ⟨Nat.le_refl _, ?_⟩
  intro i node hn hr
  exact absurd (read_lt_length hr) (Nat.not_lt.mpr hn)

theorem alloc_good {n : Nat} {h : Heap} {n0 : HNode} (hinv : Inv n h)
    (hch : ∀ cr ∈ n0.childRefs, n ≤ cr) :
    Pres n h (h.alloc n0).1 ∧ Inv n (h.alloc n0).1 ∧ n ≤ (h.alloc n0).2 := by
  obtain ⟨hlen, hcl⟩ := hinv
  refine ⟨?_, ⟨?_, ?_⟩, ?_⟩
  · intro i hi
    exact read_alloc_lt n0 (Nat.lt_of_lt_of_le hi hlen)
  · rw [alloc_length]
    exact Nat.le_succ_of_le hlen
  · intro i node hn hr
    by_cases hi : i < h.mem.length
    · rw [read_alloc_lt n0 hi] at hr
      exact hcl i node hn hr
    · have hi2 : i < h.mem.length + 1 := by
        rw [← alloc_length h n0]
        exact read_lt_length hr
      have : i = h.mem.length := Nat.le_antisymm (Nat.lt_succ_iff.mp hi2)
        (Nat.le_of_not_lt hi)
      subst this
      rw [read_alloc_self] at hr
      injection hr with hr
      subst hr
      exact hch
  · exact hlen

theorem set_good {n : Nat} {h : Heap} {x : Nat} {n0 : HNode} (hinv : Inv n h)
    (hx : n ≤ x) (hch : ∀ cr ∈ n0.childRefs, n ≤ cr) :
    Pres n h (h.set x n0) ∧ Inv n (h.set x n0) := by
  obtain ⟨hlen, hcl⟩ := hinv
  refine ⟨?_, ?_, ?_⟩
  · intro i hi
    exact read_set_ne n0 (fun hh => Nat.not_lt.mpr hx (hh ▸ hi))
  · rw [set_length]; exact hlen
  · intro i node hn hr
    by_cases hix : x = i
    · subst hix
      by_cases hxl : x < h.mem.length
      · rw [read_set_self n0 hxl] at hr
        injection hr with hr
        subst hr
        exact hch
      · have : (h.set x n0).read x = h.read x := by
          simp only [Heap.set, Heap.read]
          rw [List.set_eq_of_length_le (Nat.le_of_not_lt hxl)]
        rw [this] at hr
        exact hcl x node hn hr
    · rw [read_set_ne n0 hix] at hr
      exact hcl i node hn hr

theorem mem_removeKey {α : Type} {kv : String × α} {l : List (String × α)}
    {k : String} (hm : kv ∈ removeKey l k) : kv ∈ l := by
  induction l with
  | nil => cases hm
  | cons p t ih =>
    by_cases hp : p.1 = k
    · rw [removeKey, if_pos hp] at hm
      exact List.mem_cons_of_mem _ (ih hm)
    · rw [removeKey, if_neg hp] at hm
      rcases List.mem_cons.mp hm with hh | hh
      · exact hh ▸ List.mem_cons_self _ _
      · exact List.mem_cons_of_mem _ (ih hh)

theorem mem_setKey {α : Type} {kv : String × α} {l : List (String × α)}
    {k : String} {v : α} (hm : kv ∈ setKey l k v) : kv ∈ l ∨ kv = (k, v) := by
  induction l with
  | nil =>
    rw [setKey] at hm
    rcases List.mem_cons.mp hm with hh | hh
    · exact Or.inr hh
    · cases hh
  | cons p t ih =>
    by_cases hp : p.1 = k
    · rw [setKey, if_pos hp] at hm
      rcases List.mem_cons.mp hm with hh | hh
      · exact Or.inr hh
      · exact Or.inl (List.mem_cons_of_mem _ (mem_removeKey hh))
    · rw [setKey, if_neg hp] at hm
      rcases List.mem_cons.mp hm with hh | hh
      · exact Or.inl (hh ▸ List.mem_cons_self _ _)
      · rcases ih hh with h2 | h2
        · exact Or.inl (List.mem_cons_of_mem _ h2)
        · exact Or.inr h2

theorem getKey_mem_snd {α : Type} {l : List (String × α)} {k : String} {v : α}
    (hg : getKey l k = some v) : v ∈ l.map Prod.snd := by
  induction l with
  | nil => cases hg
  | cons p t ih =>
    by_cases hp : p.1 = k
    · rw [getKey, if_pos hp] at hg
      injection hg with hg
      rw [List.map_cons, hg]
      exact List.mem_cons_self _ _
    · rw [getKey, if_neg hp] at hg
      exact List.mem_cons_of_mem _ (ih hg)

theorem snd_removeKey_sub {α : Type} {cr : α} {l : List (String × α)}
    {k : String} (hm : cr ∈ (removeKey l k).map Prod.snd) :
    cr ∈ l.map Prod.snd := by
  obtain ⟨kv, hkv, hcr⟩ := List.mem_map.mp hm
  exact hcr ▸ List.mem_map_of_mem _ (mem_removeKey hkv)

theorem snd_setKey_sub {α : Type} {cr : α} {l : List (String × α)}
    {k : String} {v : α} (hm : cr ∈ (setKey l k v).map Prod.snd) :
    cr ∈ l.map Prod.snd ∨ cr = v := by
  obtain ⟨kv, hkv, hcr⟩ := List.mem_map.mp hm
  rcases mem_setKey hkv with hh | hh
  · exact Or.inl (hcr ▸ List.mem_map_of_mem _ hh)
  · subst hh
    exact Or.inr hcr.symm

/-! ### Deep copy stays inside the fresh region -/

theorem copyChildren_good {n : Nat} {f : Heap → Nat → Option (Heap × Nat)}
    (hf : ∀ h r h' r', Inv n h → f h r = some (h', r') →
      Pres n h h' ∧ Inv n h' ∧ n ≤ r') :
    ∀ (l : List Nat) (h : Heap) (h' : Heap) (l' : List Nat), Inv n h →
      copyChildren f h l = some (h', l') →
      Pres n h h' ∧ Inv n h' ∧ ∀ x ∈ l', n ≤ x := by
  intro l
  induction l with
  | nil =>
    intro h h' l' hinv hc
    rw [copyChildren] at hc
    injection hc with hc
    injection hc with hc1 hc2
    subst hc1; subst hc2
    exact ⟨pres_refl n h, hinv, fun x hx => absurd hx (List.not_mem_nil x)⟩
  | cons r rs ih =>
    intro h h' l' hinv hc
    rw [copyChildren] at hc
    cases hfr : f h r with
    | none => rw [hfr] at hc; exact Option.noConfusion hc
    | some p1 =>
      obtain ⟨h1, r1⟩ := p1
      rw [hfr] at hc
      dsimp only at hc
      obtain ⟨hp1, hi1, hr1⟩ := hf h r h1 r1 hinv hfr
      cases hcc : copyChildren f h1 rs with
      | none => rw [hcc] at hc; exact Option.noConfusion hc
      | some p2 =>
        obtain ⟨h2, rs2⟩ := p2
        rw [hcc] at hc
        dsimp only at hc
        injection hc with hc
        injection hc with hc1 hc2
        obtain ⟨hp2, hi2, hr2⟩ := ih h1 h2 rs2 hi1 hcc
        subst hc1; subst hc2
        refine ⟨pres_trans hp1 hp2, hi2, ?_⟩
        intro x hx
        rcases List.mem_cons.mp hx with hh | hh
        · exact hh ▸ hr1
        · exact hr2 x hh

theorem copyFields_good {n : Nat} {f : Heap → Nat → Option (Heap × Nat)}
    (hf : ∀ h r h' r', Inv n h → f h r = some (h', r') →
      Pres n h h' ∧ Inv n h' ∧ n ≤ r') :
    ∀ (l : List (String × Nat)) (h : Heap) (h' : Heap)
      (l' : List (String × Nat)), Inv n h →
      copyFields f h l = some (h', l') →
      Pres n h h' ∧ Inv n h' ∧ ∀ x ∈ l'.map Prod.snd, n ≤ x := by
  intro l
  induction l with
  | nil =>
    intro h h' l' hinv hc
    rw [copyFields] at hc
    injection hc with hc
    injection hc with hc1 hc2
    subst hc1; subst hc2
    exact ⟨pres_refl n h, hinv, fun x hx => absurd hx (List.not_mem_nil x)⟩
  | cons kr rs ih =>
    intro h h' l' hinv hc
    rcases kr with ⟨k, r⟩
    rw [copyFields] at hc
    cases hfr : f h r with
    | none => rw [hfr] at hc; exact Option.noConfusion hc
    | some p1 =>
      obtain ⟨h1, r1⟩ := p1
      rw [hfr] at hc
      dsimp only at hc
      obtain ⟨hp1, hi1, hr1⟩ := hf h r h1 r1 hinv hfr
      cases hcc : copyFields f h1 rs with
      | none => rw [hcc] at hc; exact Option.noConfusion hc
      | some p2 =>
        obtain ⟨h2, rs2⟩ := p2
        rw [hcc] at hc
        dsimp only at hc
        injection hc with hc
        injection hc with hc1 hc2
        obtain ⟨hp2, hi2, hr2⟩ := ih h1 h2 rs2 hi1 hcc
        subst hc1; subst hc2
        refine ⟨pres_trans hp1 hp2, hi2, ?_⟩
        intro x hx
        rw [List.map_cons] at hx
        rcases List.mem_cons.mp hx with hh | hh
        · exact hh ▸ hr1
        · exact hr2 x hh

theorem dcopy_good {n : Nat} : ∀ (fuel : Nat) (h : Heap) (r : Nat) (h' : Heap)
    (r' : Nat), Inv n h → dcopy fuel h r = some (h', r') →
    Pres n h h' ∧ Inv n h' ∧ n ≤ r' := by
  intro fuel
  induction fuel with
  | zero => intro h r h' r' _ hc; exact Option.noConfusion hc
  | succ fuel ih =>
    intro h r h' r' hinv hc
    rw [dcopy] at hc
    cases hr : h.read r with
    | none => rw [hr] at hc; exact Option.noConfusion hc
    | some node =>
      rw [hr] at hc
      cases node with
      | arr es =>
        dsimp only at hc
        cases hcc : copyChildren (dcopy fuel) h es with
        | none => rw [hcc] at hc; exact Option.noConfusion hc
        | some p =>
          obtain ⟨h1, es1⟩ := p
          rw [hcc] at hc
          dsimp only at hc
          injection hc with hc
          obtain ⟨hp, hi, hrs⟩ := copyChildren_good
            (fun a b a' b' hia hda => ih a b a' b' hia hda) es h h1 es1 hinv hcc
          obtain ⟨hpa, hia, hra⟩ := alloc_good hi
            (show ∀ cr ∈ (HNode.arr es1).childRefs, n ≤ cr from hrs)
          have hc1 := congrArg Prod.fst hc
          have hc2 := congrArg Prod.snd hc
          simp only at hc1 hc2
          subst hc1; subst hc2
          exact ⟨pres_trans hp hpa, hia, hra⟩
      | obj fs =>
        dsimp only at hc
        cases hcc : copyFields (dcopy fuel) h fs with
        | none => rw [hcc] at hc; exact Option.noConfusion hc
        | some p =>
          obtain ⟨h1, fs1⟩ := p
          rw [hcc] at hc
          dsimp only at hc
          injection hc with hc
          obtain ⟨hp, hi, hrs⟩ := copyFields_good
            (fun a b a' b' hia hda => ih a b a' b' hia hda) fs h h1 fs1 hinv hcc
          obtain ⟨hpa, hia, hra⟩ := alloc_good hi
            (show ∀ cr ∈ (HNode.obj fs1).childRefs, n ≤ cr from hrs)
          have hc1 := congrArg Prod.fst hc
          have hc2 := congrArg Prod.snd hc
          simp only at hc1 hc2
          subst hc1; subst hc2
          exact ⟨pres_trans hp hpa, hia, hra⟩
      | null =>
        dsimp only at hc
        injection hc with hc
        obtain ⟨hpa, hia, hra⟩ := alloc_good hinv
          (show ∀ cr ∈ HNode.null.childRefs, n ≤ cr from
            fun cr hcr => absurd hcr (List.not_mem_nil cr))
        have hc1 := congrArg Prod.fst hc
        have hc2 := congrArg Prod.snd hc
        simp only at hc1 hc2
        subst hc1; subst hc2
        exact ⟨hpa, hia, hra⟩
      | bool b =>
        dsimp only at hc
        injection hc with hc
        obtain ⟨hpa, hia, hra⟩ := alloc_good hinv
          (show ∀ cr ∈ (HNode.bool b).childRefs, n ≤ cr from
            fun cr hcr => absurd hcr (List.not_mem_nil cr))
        have hc1 := congrArg Prod.fst hc
        have hc2 := congrArg Prod.snd hc
        simp only at hc1 hc2
        subst hc1; subst hc2
        exact ⟨hpa, hia, hra⟩
      | num m =>
        dsimp only at hc
        injection hc with hc
        obtain ⟨hpa, hia, hra⟩ := alloc_good hinv
          (show ∀ cr ∈ (HNode.num m).childRefs, n ≤ cr from
            fun cr hcr => absurd hcr (List.not_mem_nil cr))
        have hc1 := congrArg Prod.fst hc
        have hc2 := congrArg Prod.snd hc
        simp only at hc1 hc2
        subst hc1; subst hc2
        exact ⟨hpa, hia, hra⟩
      | str s =>
        dsimp only at hc
        injection hc with hc
        obtain ⟨hpa, hia, hra⟩ := alloc_good hinv
          (show ∀ cr ∈ (HNode.str s).childRefs, n ≤ cr from
            fun cr hcr => absurd hcr (List.not_mem_nil cr))
        have hc1 := congrArg Prod.fst hc
        have hc2 := congrArg Prod.snd hc
        simp only at hc1 hc2
        subst hc1; subst hc2
        exact ⟨hpa, hia, hra⟩

/-! ### The heap body only writes inside the fresh region -/

theorem popFieldHeap_good {n : Nat} {h : Heap} {mr : Nat} {k : String}
    {h' : Heap} (hinv : Inv n h) (hmr : n ≤ mr)
    (hp : popFieldHeap h mr k = some h') : Pres n h h' ∧ Inv n h' := by
  rw [popFieldHeap] at hp
  cases hr : h.read mr with
  | none => rw [hr] at hp; exact Option.noConfusion hp
  | some node =>
    rw [hr] at hp
    cases node with
    | obj mfs =>
      dsimp only at hp
      injection hp with hp
      subst hp
      exact set_good hinv hmr
        (fun cr hcr => hinv.2 mr _ hmr hr cr (snd_removeKey_sub hcr))
    | null => exact Option.noConfusion hp
    | bool b => exact Option.noConfusion hp
    | num m => exact Option.noConfusion hp
    | str s => exact Option.noConfusion hp
    | arr es => exact Option.noConfusion hp

theorem popFieldsHeap_good {n : Nat} : ∀ (ks : List String) (h : Heap)
    (mr : Nat) (h' : Heap), Inv n h → n ≤ mr →
    popFieldsHeap h mr ks = some h' → Pres n h h' ∧ Inv n h' := by
  intro ks
  induction ks with
  | nil =>
    intro h mr h' hinv _ hp
    rw [popFieldsHeap] at hp
    injection hp with hp
    subst hp
    exact ⟨pres_refl n h, hinv⟩
  | cons k ks ih =>
    intro h mr h' hinv hmr hp
    rw [popFieldsHeap] at hp
    cases hpf : popFieldHeap h mr k with
    | none => rw [hpf] at hp; exact Option.noConfusion hp
    | some h1 =>
      rw [hpf] at hp
      dsimp only at hp
      obtain ⟨hp1, hi1⟩ := popFieldHeap_good hinv hmr hpf
      obtain ⟨hp2, hi2⟩ := ih h1 mr h' hi1 hmr hp
      exact ⟨pres_trans hp1 hp2, hi2⟩

theorem setProjectHeap_good {n : Nat} {h : Heap} {mr : Nat} {h' : Heap}
    (hinv : Inv n h) (hmr : n ≤ mr) (hp : setProjectHeap h mr = some h') :
    Pres n h h' ∧ Inv n h' := by
  rw [setProjectHeap] at hp
  obtain ⟨hpa, hia, hra⟩ := @alloc_good n h (.str PROJECT) hinv
    (fun cr hcr => absurd hcr (List.not_mem_nil cr))
  cases hr : (h.alloc (.str PROJECT)).1.read mr with
  | none => rw [hr] at hp; exact Option.noConfusion hp
  | some node =>
    rw [hr] at hp
    cases node with
    | obj mfs =>
      dsimp only at hp
      injection hp with hp
      subst hp
      have hch : ∀ cr ∈ (HNode.obj (setKey mfs "project"
          (h.alloc (.str PROJECT)).2)).childRefs, n ≤ cr := by
        intro cr hcr
        simp only [HNode.childRefs] at hcr
        rcases snd_setKey_sub hcr with hh | hh
        · exact hia.2 mr _ hmr hr cr hh
        · exact hh ▸ hra
      obtain ⟨hps, his⟩ := set_good hia hmr hch
      exact ⟨pres_trans hpa hps, his⟩
    | null => exact Option.noConfusion hp
    | bool b => exact Option.noConfusion hp
    | num m => exact Option.noConfusion hp
    | str s => exact Option.noConfusion hp
    | arr es => exact Option.noConfusion hp

theorem getMetaRefHeap_good {n : Nat} {h : Heap} {c : Nat} {h' : Heap}
    {mr : Nat} (hinv : Inv n h) (hc : n ≤ c)
    (hg : getMetaRefHeap h c = some (h', mr)) :
    Pres n h h' ∧ Inv n h' ∧ n ≤ mr := by
  rw [getMetaRefHeap] at hg
  cases hr : h.read c with
  | none => rw [hr] at hg; exact Option.noConfusion hg
  | some node =>
    rw [hr] at hg
    cases node with
    | obj cfs =>
      dsimp only at hg
      cases hk : getKey cfs "metadata" with
      | some mr0 =>
        rw [hk] at hg
        injection hg with hg
        injection hg with hg1 hg2
        subst hg1; subst hg2
        exact ⟨pres_refl n h, hinv, hinv.2 c _ hc hr mr0 (getKey_mem_snd hk)⟩
      | none =>
        rw [hk] at hg
        injection hg with hg
        injection hg with hg1 hg2
        obtain ⟨hpa, hia, hra⟩ := @alloc_good n h (.obj []) hinv
          (fun cr hcr => absurd hcr (List.not_mem_nil cr))
        subst hg1; subst hg2
        exact ⟨hpa, hia, hra⟩
    | null => exact Option.noConfusion hg
    | bool b => exact Option.noConfusion hg
    | num m => exact Option.noConfusion hg
    | str s => exact Option.noConfusion hg
    | arr es => exact Option.noConfusion hg

theorem assignMetadataHeap_good {n : Nat} {h : Heap} {c mr : Nat} {h' : Heap}
    (hinv : Inv n h) (hc : n ≤ c) (hmr : n ≤ mr)
    (hp : assignMetadataHeap h c mr = some h') : Pres n h h' ∧ Inv n h' := by
  rw [assignMetadataHeap] at hp
  cases hr : h.read c with
  | none => rw [hr] at hp; exact Option.noConfusion hp
  | some node =>
    rw [hr] at hp
    cases node with
    | obj cfs =>
      dsimp only at hp
      injection hp with hp
      subst hp
      have hch : ∀ cr ∈ (HNode.obj (setKey cfs "metadata" mr)).childRefs,
          n ≤ cr := by
        intro cr hcr
        simp only [HNode.childRefs] at hcr
        rcases snd_setKey_sub hcr with hh | hh
        · exact hinv.2 c _ hc hr cr hh
        · exact hh ▸ hmr
      exact set_good hinv hc hch
    | null => exact Option.noConfusion hp
    | bool b => exact Option.noConfusion hp
    | num m => exact Option.noConfusion hp
    | str s => exact Option.noConfusion hp
    | arr es => exact Option.noConfusion hp

theorem foldl_good {n : Nat} {α : Type} (f : Heap → α → Heap) (P : α → Prop)
    (hf : ∀ h a, Inv n h → P a → Pres n h (f h a) ∧ Inv n (f h a)) :
    ∀ (l : List α) (h : Heap), Inv n h → (∀ a ∈ l, P a) →
      Pres n h (l.foldl f h) ∧ Inv n (l.foldl f h) := by
  intro l
  induction l with
  | nil => intro h hinv _; exact ⟨pres_refl n h, hinv⟩
  | cons a t ih =>
    intro h hinv hP
    rw [List.foldl_cons]
    obtain ⟨hp1, hi1⟩ := hf h a hinv (hP a (List.mem_cons_self a t))
    obtain ⟨hp2, hi2⟩ := ih (f h a) hi1
      (fun b hb => hP b (List.mem_cons_of_mem a hb))
    exact ⟨pres_trans hp1 hp2, hi2⟩

theorem cleanHookItemHeap_good {n : Nat} {h : Heap} {er : Nat} (hinv : Inv n h)
    (her : n ≤ er) :
    Pres n h (cleanHookItemHeap h er) ∧ Inv n (cleanHookItemHeap h er) := by
  unfold cleanHookItemHeap
  cases hr : h.read er with
  | none => exact ⟨pres_refl n h, hinv⟩
  | some node =>
    cases node with
    | obj efs =>
      exact set_good hinv her
        (fun cr hcr => hinv.2 er _ her hr cr (snd_removeKey_sub hcr))
    | null => exact ⟨pres_refl n h, hinv⟩
    | bool b => exact ⟨pres_refl n h, hinv⟩
    | num m => exact ⟨pres_refl n h, hinv⟩
    | str s => exact ⟨pres_refl n h, hinv⟩
    | arr es => exact ⟨pres_refl n h, hinv⟩

theorem cleanHookListHeap_good {n : Nat} {h : Heap} {lr : Nat} (hinv : Inv n h)
    (hlr : n ≤ lr) :
    Pres n h (cleanHookListHeap h lr) ∧ Inv n (cleanHookListHeap h lr) := by
  unfold cleanHookListHeap
  cases hr : h.read lr with
  | none => exact ⟨pres_refl n h, hinv⟩
  | some node =>
    cases node with
    | arr es =>
      exact foldl_good cleanHookItemHeap (fun a => n ≤ a)
        (fun h0 a hi ha => cleanHookItemHeap_good hi ha) es h hinv
        (fun a ha => hinv.2 lr _ hlr hr a ha)
    | null => exact ⟨pres_refl n h, hinv⟩
    | bool b => exact ⟨pres_refl n h, hinv⟩
    | num m => exact ⟨pres_refl n h, hinv⟩
    | str s => exact ⟨pres_refl n h, hinv⟩
    | obj fs => exact ⟨pres_refl n h, hinv⟩

theorem cleanHooksHeap_good {n : Nat} {h : Heap} {kr : Nat} (hinv : Inv n h)
    (hkr : n ≤ kr) :
    Pres n h (cleanHooksHeap h kr) ∧ Inv n (cleanHooksHeap h kr) := by
  unfold cleanHooksHeap
  cases hr : h.read kr with
  | none => exact ⟨pres_refl n h, hinv⟩
  | some node =>
    cases node with
    | obj hfs =>
      dsimp only
      by_cases he : hfs.isEmpty
      · rw [if_pos he]
        exact ⟨pres_refl n h, hinv⟩
      · rw [if_neg he]
        exact foldl_good (fun acc kv => cleanHookListHeap acc kv.2)
          (fun kv => n ≤ kv.2)
          (fun h0 a hi ha => cleanHookListHeap_good hi ha) hfs h hinv
          (fun a ha => hinv.2 kr _ hkr hr a.2 (List.mem_map_of_mem _ ha))
    | null => exact ⟨pres_refl n h, hinv⟩
    | bool b => exact ⟨pres_refl n h, hinv⟩
    | num m => exact ⟨pres_refl n h, hinv⟩
    | str s => exact ⟨pres_refl n h, hinv⟩
    | arr es => exact ⟨pres_refl n h, hinv⟩

theorem specCleanHeap_good {n : Nat} {h : Heap} {c : Nat} (hinv : Inv n h)
    (hc : n ≤ c) : Pres n h (specCleanHeap h c) ∧ Inv n (specCleanHeap h c) := by
  unfold specCleanHeap
  cases hr : h.read c with
  | none => exact ⟨pres_refl n h, hinv⟩
  | some node =>
    cases node with
    | obj cfs =>
      dsimp only
      cases hk : getKey cfs "spec" with
      | none => exact ⟨pres_refl n h, hinv⟩
      | some sr =>
        dsimp only
        have hsr : n ≤ sr := hinv.2 c _ hc hr sr (getKey_mem_snd hk)
        cases hrs : h.read sr with
        | none => exact ⟨pres_refl n h, hinv⟩
        | some snode =>
          cases snode with
          | obj sfs =>
            dsimp only
            have hch : ∀ cr ∈ (HNode.obj (removeKey (removeKey sfs "sharing")
                "agents")).childRefs, n ≤ cr := by
              intro cr hcr
              simp only [HNode.childRefs] at hcr
              have hcf : cr ∈ (HNode.obj sfs).childRefs := by
                simp only [HNode.childRefs]
                exact snd_removeKey_sub (snd_removeKey_sub hcr)
              exact hinv.2 sr _ hsr hrs cr hcf
            obtain ⟨hps, his⟩ := set_good hinv hsr hch
            cases hrs2 : (h.set sr (.obj (removeKey (removeKey sfs "sharing")
                "agents"))).read sr with
            | none => exact ⟨hps, his⟩
            | some snode2 =>
              cases snode2 with
              | obj sfs2 =>
                dsimp only
                cases hk2 : getKey sfs2 "hooks" with
                | none => exact ⟨hps, his⟩
                | some hr2 =>
                  have hhr2 : n ≤ hr2 :=
                    his.2 sr _ hsr hrs2 hr2 (getKey_mem_snd hk2)
                  obtain ⟨hph, hih⟩ := cleanHooksHeap_good his hhr2
                  exact ⟨pres_trans hps hph, hih⟩
              | null => exact ⟨hps, his⟩
              | bool b => exact ⟨hps, his⟩
              | num m => exact ⟨hps, his⟩
              | str s => exact ⟨hps, his⟩
              | arr es => exact ⟨hps, his⟩
          | null => exact ⟨pres_refl n h, hinv⟩
          | bool b => exact ⟨pres_refl n h, hinv⟩
          | num m => exact ⟨pres_refl n h, hinv⟩
          | str s => exact ⟨pres_refl n h, hinv⟩
          | arr es => exact ⟨pres_refl n h, hinv⟩
    | null => exact ⟨pres_refl n h, hinv⟩
    | bool b => exact ⟨pres_refl n h, hinv⟩
    | num m => exact ⟨pres_refl n h, hinv⟩
    | str s => exact ⟨pres_refl n h, hinv⟩
    | arr es => exact ⟨pres_refl n h, hinv⟩

theorem popStatusHeap_good {n : Nat} {h : Heap} {c : Nat} {h' : Heap}
    {c' : Nat} (hinv : Inv n h) (hc : n ≤ c)
    (hp : popStatusHeap h c = some (h', c')) :
    Pres n h h' ∧ Inv n h' ∧ c' = c := by
  rw [popStatusHeap] at hp
  cases hr : h.read c with
  | none => rw [hr] at hp; exact Option.noConfusion hp
  | some node =>
    rw [hr] at hp
    cases node with
    | obj cfs =>
      dsimp only at hp
      injection hp with hp
      injection hp with hp1 hp2
      subst hp1
      have hch : ∀ cr ∈ (HNode.obj (removeKey cfs "status")).childRefs,
          n ≤ cr := by
        intro cr hcr
        simp only [HNode.childRefs] at hcr
        have hcf : cr ∈ (HNode.obj cfs).childRefs := by
          simp only [HNode.childRefs]
          exact snd_removeKey_sub hcr
        exact hinv.2 c _ hc hr cr hcf
      obtain ⟨hps, his⟩ := set_good hinv hc hch
      exact ⟨hps, his, hp2.symm⟩
    | null => exact Option.noConfusion hp
    | bool b => exact Option.noConfusion hp
    | num m => exact Option.noConfusion hp
    | str s => exact Option.noConfusion hp
    | arr es => exact Option.noConfusion hp

/-! ### Reading the original tree is unaffected -/

theorem readChildren_mono {g g' : Nat → Option Json}
    (hg : ∀ x j, g x = some j → g' x = some j) :
    ∀ (l : List Nat) (js : List Json), readChildren g l = some js →
      readChildren g' l = some js := by
  intro l
  induction l with
  | nil => intro js hj; exact hj
  | cons r rs ih =>
    intro js hj
    rw [readChildren] at hj ⊢
    cases hgr : g r with
    | none => rw [hgr] at hj; exact Option.noConfusion hj
    | some j1 =>
      rw [hgr] at hj
      cases hrc : readChildren g rs with
      | none => rw [hrc] at hj; exact Option.noConfusion hj
      | some js1 =>
        rw [hrc] at hj
        rw [hg r j1 hgr, ih js1 hrc]
        exact hj

theorem readFields_mono {g g' : Nat → Option Json}
    (hg : ∀ x j, g x = some j → g' x = some j) :
    ∀ (l : List (String × Nat)) (js : List (String × Json)),
      readFields g l = some js → readFields g' l = some js := by
  intro l
  induction l with
  | nil => intro js hj; exact hj
  | cons kr rs ih =>
    rcases kr with ⟨k, r⟩
    intro js hj
    rw [readFields] at hj ⊢
    cases hgr : g r with
    | none => rw [hgr] at hj; exact Option.noConfusion hj
    | some j1 =>
      rw [hgr] at hj
      cases hrc : readFields g rs with
      | none => rw [hrc] at hj; exact Option.noConfusion hj
      | some js1 =>
        rw [hrc] at hj
        rw [hg r j1 hgr, ih js1 hrc]
        exact hj

theorem readTree_pres {h h' : Heap}
    (hag : ∀ i, i < h.mem.length → h'.read i = h.read i) :
    ∀ (fuel r : Nat) (j : Json), readTree fuel h r = some j →
      readTree fuel h' r = some j := by
  intro fuel
  induction fuel with
  | zero => intro r j hj; exact Option.noConfusion hj
  | succ fuel ih =>
    intro r j hj
    rw [readTree] at hj ⊢
    cases hr : h.read r with
    | none => rw [hr] at hj; exact Option.noConfusion hj
    | some node =>
      rw [hr] at hj
      have hr' : h'.read r = some node := by
        rw [hag r (read_lt_length hr)]; exact hr
      rw [hr']
      cases node with
      | null => exact hj
      | bool b => exact hj
      | num m => exact hj
      | str s => exact hj
      | arr es =>
        dsimp only at hj ⊢
        cases hrc : readChildren (readTree fuel h) es with
        | none => rw [hrc] at hj; exact Option.noConfusion hj
        | some js =>
          rw [hrc] at hj
          rw [readChildren_mono (fun x jx hx => ih x jx hx) es js hrc]
          exact hj
      | obj fs =>
        dsimp only at hj ⊢
        cases hrc : readFields (readTree fuel h) fs with
        | none => rw [hrc] at hj; exact Option.noConfusion hj
        | some js =>
          rw [hrc] at hj
          rw [readFields_mono (fun x jx hx => ih x jx hx) fs js hrc]
          exact hj

/-- C5: the cleaner never mutates its input: for every heap record passed
to the heap embedding of `remove_unwanted_fields`, whenever the call
completes, the value tree rooted at the input address is unchanged, and
the returned record is a new derived copy living at a fresh address. -/
theorem clean_never_mutates_input (fuel fr : Nat) (h : Heap) (r : Nat)
    (j : Json) (h' : Heap) (c : Nat)
    (hread : readTree fr h r = some j)
    (hrun : remove_unwanted_fields_heap fuel h r = some (h', c)) :
    readTree fr h' r = some j ∧ h.mem.length ≤ c := by
  rw [remove_unwanted_fields_heap] at hrun
  cases hd : dcopy fuel h r with
  | none => rw [hd] at hrun; exact Option.noConfusion hrun
  | some p1 =>
    obtain ⟨h1, c1⟩ := p1
    rw [hd] at hrun
    dsimp only at hrun
    obtain ⟨hp1, hi1, hc1⟩ := dcopy_good fuel h r h1 c1 (inv_init h) hd
    cases hg : getMetaRefHeap h1 c1 with
    | none => rw [hg] at hrun; exact Option.noConfusion hrun
    | some p2 =>
      obtain ⟨h2, mr⟩ := p2
      rw [hg] at hrun
      dsimp only at hrun
      obtain ⟨hp2, hi2, hmr⟩ := getMetaRefHeap_good hi1 hc1 hg
      cases hpf : popFieldsHeap h2 mr volatileMetaFields with
      | none => rw [hpf] at hrun; exact Option.noConfusion hrun
      | some h3 =>
        rw [hpf] at hrun
        dsimp only at hrun
        obtain ⟨hp3, hi3⟩ :=
          popFieldsHeap_good volatileMetaFields h2 mr h3 hi2 hmr hpf
        cases hsp : setProjectHeap h3 mr with
        | none => rw [hsp] at hrun; exact Option.noConfusion hrun
        | some h4 =>
          rw [hsp] at hrun
          dsimp only at hrun
          obtain ⟨hp4, hi4⟩ := setProjectHeap_good hi3 hmr hsp
          cases ham : assignMetadataHeap h4 c1 mr with
          | none => rw [ham] at hrun; exact Option.noConfusion hrun
          | some h5 =>
            rw [ham] at hrun
            dsimp only at hrun
            obtain ⟨hp5, hi5⟩ := assignMetadataHeap_good hi4 hc1 hmr ham
            obtain ⟨hp6, hi6⟩ := specCleanHeap_good hi5 hc1
            obtain ⟨hp7, hi7, hcc⟩ := popStatusHeap_good hi6 hc1 hrun
            have hpres : Pres h.mem.length h h' :=
              pres_trans hp1 (pres_trans hp2 (pres_trans hp3 (pres_trans hp4
                (pres_trans hp5 (pres_trans hp6 hp7)))))
            subst hcc
            exact ⟨readTree_pres (fun i hi => hpres i hi) fr r j hread, hc1⟩

/-- Witness for C5 at a concrete three-node heap holding the record
`{"metadata": {"id": "1"}}`: the run completes, allocates its result at
the fresh address 5, and the input tree at address 2 reads back unchanged. -/
theorem clean_never_mutates_input_witness :
    readTree 3 ⟨[.str "1", .obj [("id", 0)], .obj [("metadata", 1)]]⟩ 2
      = some (.obj [("metadata", .obj [("id", .str "1")])]) ∧
    remove_unwanted_fields_heap 9
        ⟨[.str "1", .obj [("id", 0)], .obj [("metadata", 1)]]⟩ 2
      = some (⟨[.str "1", .obj [("id", 0)], .obj [("metadata", 1)], .str "1",
          .obj [("project", 6)], .obj [("metadata", 4)],
          .str "system-catalog"]⟩, 5) ∧
    readTree 3 ⟨[.str "1", .obj [("id", 0)], .obj [("metadata", 1)], .str "1",
        .obj [("project", 6)], .obj [("metadata", 4)],
        .str "system-catalog"]⟩ 2
      = some (.obj [("metadata", .obj [("id", .str "1")])]) ∧
    (3 : Nat) ≤ 5 :=
  ⟨rfl, rfl,
    (clean_never_mutates_input 9 3
      ⟨[.str "1", .obj [("id", 0)], .obj [("metadata", 1)]]⟩ 2
      (.obj [("metadata", .obj [("id", .str "1")])])
      ⟨[.str "1", .obj [("id", 0)], .obj [("metadata", 1)], .str "1",
        .obj [("project", 6)], .obj [("metadata", 4)],
        .str "system-catalog"]⟩ 5 rfl rfl).1,
    (clean_never_mutates_input 9 3
      ⟨[.str "1", .obj [("id", 0)], .obj [("metadata", 1)]]⟩ 2
      (.obj [("metadata", .obj [("id", .str "1")])])
      ⟨[.str "1", .obj [("id", 0)], .obj [("metadata", 1)], .str "1",
        .obj [("project", 6)], .obj [("metadata", 4)],
        .str "system-catalog"]⟩ 5 rfl rfl).2⟩

end Replicate
